import Mathlib

/-!
# Habit-Tracker core: shallow embedding

Shallow embedding of the temporal segment / streak / analytics core of the
habit-tracker repository.  Calendar dates are naive `YYYY-MM-DD` triples; the
string comparisons the JavaScript code performs on zero-padded `YYYY-MM-DD`
strings coincide with lexicographic comparison of `(year, month, day)`
triples, which is how `dateLe` / `dateLt` are defined.  Date arithmetic
(`dayjs`, `new Date` + `setDate`) is modelled in its naive/UTC calendar
reading, matching the spec's "no timezone handling" scope.

Sources embedded:
* `src/utils/dateHelpers.ts` (`getDaysInMonth`)
* `src/services/api.ts` (client offline engine: `toggleEntry`,
  `createSegment`, `deleteSlot`, `getPreviousDate`)
* `src/server/index.js` (server engine: `POST /api/entries/toggle`,
  `POST /api/segments`, `DELETE /api/slots/:id`) together with the mongoose
  schemas of `src/server/models.js`
* the Dashboard `analyticsData` memo and the SlotRow `nextMilestone` memo
  (unnamed components).
-/

namespace HabitTracker

/-- A naive calendar date, the structured reading of a `YYYY-MM-DD` string. -/
structure Date where
  y : Nat
  m : Nat
  d : Nat
deriving DecidableEq, Repr

/-- Lexicographic `≤`, the order JS string comparison induces on zero-padded
`YYYY-MM-DD` strings (and `Date` object comparison on their UTC instants). -/
def dateLe (a b : Date) : Prop :=
  a.y < b.y ∨ (a.y = b.y ∧ (a.m < b.m ∨ (a.m = b.m ∧ a.d ≤ b.d)))

/-- Lexicographic `<` on dates. -/
def dateLt (a b : Date) : Prop :=
  a.y < b.y ∨ (a.y = b.y ∧ (a.m < b.m ∨ (a.m = b.m ∧ a.d < b.d)))

instance (a b : Date) : Decidable (dateLe a b) := by
  unfold dateLe; exact inferInstance

instance (a b : Date) : Decidable (dateLt a b) := by
  unfold dateLt; exact inferInstance

/-- Gregorian leap-year rule, as implemented by JS `Date` / dayjs. -/
def isLeapYear (y : Nat) : Bool :=
  y % 4 == 0 && (y % 100 != 0 || y % 400 == 0)

/-- Number of days of month `m` of year `y` (JS `new Date(y, m, 0).getDate()`,
dayjs `endOf('month')`). -/
def daysInMonthCount (y m : Nat) : Nat :=
  if m = 2 then (if isLeapYear y then 29 else 28)
  else if m = 4 ∨ m = 6 ∨ m = 9 ∨ m = 11 then 30
  else 31

/-- Calendar-correct previous day (`getPreviousDate` of both engines:
`new Date(dateStr)`, `setDate(getDate() - 1)`, re-format). -/
def prevDay (x : Date) : Date :=
  if 1 < x.d then ⟨x.y, x.m, x.d - 1⟩
  else if 1 < x.m then ⟨x.y, x.m - 1, daysInMonthCount x.y (x.m - 1)⟩
  else ⟨x.y - 1, 12, 31⟩

/-- Calendar-correct next day (dayjs `add(1, 'day')`). -/
def addDay (x : Date) : Date :=
  if x.d < daysInMonthCount x.y x.m then ⟨x.y, x.m, x.d + 1⟩
  else if x.m < 12 then ⟨x.y, x.m + 1, 1⟩
  else ⟨x.y + 1, 1, 1⟩

/-- A well-formed calendar date (year at least 1, as for every `YYYY-MM-DD`
value the application produces). -/
def validDate (x : Date) : Prop :=
  1 ≤ x.y ∧ 1 ≤ x.m ∧ x.m ≤ 12 ∧ 1 ≤ x.d ∧ x.d ≤ daysInMonthCount x.y x.m

instance (x : Date) : Decidable (validDate x) := by
  unfold validDate; exact inferInstance

/-- The `while (curr.isBefore(end) || curr.isSame(end, 'day'))` loop of
`getDaysInMonth` in `src/utils/dateHelpers.ts`, with explicit fuel (the loop
runs at most 31 times; 40 is strictly more than any month length). -/
def goDays (endD : Date) : Nat → Date → List Date
  | 0, _ => []
  | fuel + 1, curr =>
      if dateLe curr endD then curr :: goDays endD fuel (addDay curr) else []

/-- `getDaysInMonth` of `src/utils/dateHelpers.ts`: every day of the anchor's
month, from `startOf('month')` to `endOf('month')`, ascending. -/
def getDaysInMonth (anchor : Date) : List Date :=
  goDays ⟨anchor.y, anchor.m, daysInMonthCount anchor.y anchor.m⟩ 40 ⟨anchor.y, anchor.m, 1⟩

/-- `Slot` record (src/types.ts, SlotSchema). -/
structure Slot where
  _id : String
  deviceId : String
  time : String
  order : Nat
deriving DecidableEq, Repr

/-- `HabitSegment` record (src/types.ts, HabitSegmentSchema).  `endDate = none`
is an open segment.  `streak` / `lastCompletedDate` are the cached projections
kept by the client offline engine. -/
structure HabitSegment where
  _id : String
  deviceId : String
  slotId : String
  name : String
  color : String
  startDate : Date
  endDate : Option Date
  streak : Nat
  lastCompletedDate : Option Date
deriving DecidableEq, Repr

/-- `HabitEntry` record (src/types.ts, HabitEntrySchema). -/
structure HabitEntry where
  _id : String
  deviceId : String
  segmentId : String
  date : Date
  completed : Bool
deriving DecidableEq, Repr

/-- The in-memory snapshot both engines mutate: slots, segments and entries. -/
structure AppState where
  slots : List Slot
  segments : List HabitSegment
  entries : List HabitEntry
deriving DecidableEq, Repr

instance : IsTotal HabitEntry (fun a b => dateLe b.date a.date) :=
  ⟨fun a b => by unfold dateLe; omega⟩

instance : IsTrans HabitEntry (fun a b => dateLe b.date a.date) :=
  ⟨fun a b c hab hbc => by unfold dateLe at *; omega⟩

/-- Sort entries by date descending: JS stable
`sort((a, b) => b.date.localeCompare(a.date))` / mongo `sort(date: -1)`. -/
def sortEntriesByDateDesc (l : List HabitEntry) : List HabitEntry :=
  List.insertionSort (fun a b => dateLe b.date a.date) l

/-- The streak loop body: count how many successive entries are each exactly
one calendar day earlier than the previous one, stopping at the first gap. -/
def streakWalk : Date → List HabitEntry → Nat
  | _, [] => 0
  | curr, e :: es =>
      if e.date = prevDay curr then 1 + streakWalk (prevDay curr) es else 0

/-- Streak recomputation, duplicated verbatim in `toggleEntry`
(src/services/api.ts) and `POST /api/entries/toggle` (src/server/index.js):
gather this segment's completed entries, sort by date descending, walk
backwards one calendar day at a time until the first gap. -/
def recomputeStreak (entries : List HabitEntry) (segmentId : String) :
    Nat × Option Date :=
  match sortEntriesByDateDesc
      (entries.filter (fun e => e.segmentId == segmentId && e.completed)) with
  | [] => (0, none)
  | first :: rest => (1 + streakWalk first.date rest, some first.date)

/-- Client upsert of `toggleEntry` (src/services/api.ts): `findIndex` on
`(segmentId, date)`; update the first match in place, else push a new record
(also when `completed = false`).  Returns the new entry list and the entry. -/
def clientUpsertEntry (dev seg : String) (dt : Date) (c : Bool) (newId : String) :
    List HabitEntry → List HabitEntry × HabitEntry
  | [] =>
      let e : HabitEntry := ⟨newId, dev, seg, dt, c⟩
      ([e], e)
  | e :: es =>
      if e.segmentId = seg ∧ e.date = dt then
        ({ e with completed := c } :: es, { e with completed := c })
      else
        let r := clientUpsertEntry dev seg dt c newId es
        (e :: r.1, r.2)

/-- Segment-cache update of the client `toggleEntry`: `findIndex` on `_id`,
set `streak` and `lastCompletedDate` on the first match only. -/
def updateSegCache (segId : String) (st : Nat) (lcd : Option Date) :
    List HabitSegment → List HabitSegment
  | [] => []
  | g :: gs =>
      if g._id = segId then { g with streak := st, lastCompletedDate := lcd } :: gs
      else g :: updateSegCache segId st lcd gs

/-- `toggleEntry` of the client offline engine (src/services/api.ts): upsert
the entry, recompute the streak from scratch, cache it on the segment (if one
with that id is stored), and return `(entry, streak, lastCompletedDate)`. -/
def clientToggleEntry (st : AppState) (dev segId : String) (dt : Date) (c : Bool)
    (newId : String) : AppState × HabitEntry × Nat × Option Date :=
  let up := clientUpsertEntry dev segId dt c newId st.entries
  let rs := recomputeStreak up.1 segId
  let segs := updateSegCache segId rs.1 rs.2 st.segments
  ({ st with entries := up.1, segments := segs }, up.2, rs.1, rs.2)

/-- Server `findOneAndUpdate` match step: first entry matching
`(deviceId, segmentId, date)` gets `completed` replaced. -/
def serverUpdateFirst (dev seg : String) (dt : Date) (c : Bool) :
    List HabitEntry → Option (List HabitEntry × HabitEntry)
  | [] => none
  | e :: es =>
      if e.deviceId = dev ∧ e.segmentId = seg ∧ e.date = dt then
        some ({ e with completed := c } :: es, { e with completed := c })
      else
        (serverUpdateFirst dev seg dt c es).map (fun r => (e :: r.1, r.2))

/-- Server upsert (`findOneAndUpdate` with `upsert: true` against
HabitEntrySchema's unique `(segmentId, date)` index): update the first match
on `(deviceId, segmentId, date)`; otherwise insert, unless an entry with the
same `(segmentId, date)` under another device already exists, in which case
the unique index rejects the insert. -/
def serverUpsertEntry (dev seg : String) (dt : Date) (c : Bool) (newId : String)
    (entries : List HabitEntry) : Except String (List HabitEntry × HabitEntry) :=
  match serverUpdateFirst dev seg dt c entries with
  | some r => .ok r
  | none =>
      if entries.any (fun e => decide (e.segmentId = seg ∧ e.date = dt)) then
        .error "duplicate key"
      else
        let e : HabitEntry := ⟨newId, dev, seg, dt, c⟩
        .ok (entries ++ [e], e)

/-- `POST /api/entries/toggle` (src/server/index.js): upsert, recompute the
streak from scratch, respond with `(entry, streak, lastCompletedDate)`.  The
trailing `findByIdAndUpdate(segmentId, streak, lastCompletedDate)` writes
paths that HabitSegmentSchema does not declare, which strict mongoose strips,
so stored segments are unchanged. -/
def serverToggleEntry (st : AppState) (dev segId : String) (dt : Date) (c : Bool)
    (newId : String) : Except String (AppState × HabitEntry × Nat × Option Date) :=
  match serverUpsertEntry dev segId dt c newId st.entries with
  | .error msg => .error msg
  | .ok r =>
      let rs := recomputeStreak r.1 segId
      .ok ({ st with entries := r.1 }, r.2, rs.1, rs.2)

/-- The open-segment test both `createSegment` implementations use to find the
currently active segment of a slot. -/
def isOpenFor (dev slotId : String) (g : HabitSegment) : Prop :=
  g.deviceId = dev ∧ g.slotId = slotId ∧ g.endDate = none

instance (dev slotId : String) (g : HabitSegment) : Decidable (isOpenFor dev slotId g) := by
  unfold isOpenFor; exact inferInstance

/-- Client `createSegment` closing step (src/services/api.ts): the first open
segment of the slot gets `endDate := previous day of the new start date`,
unconditionally. -/
def closeOpenClient (dev slotId : String) (sd : Date) :
    List HabitSegment → List HabitSegment
  | [] => []
  | g :: gs =>
      if isOpenFor dev slotId g then { g with endDate := some (prevDay sd) } :: gs
      else g :: closeOpenClient dev slotId sd gs

/-- Server `POST /api/segments` closing step (src/server/index.js): the first
open segment of the slot is closed only when the new `startDate` is strictly
after its own `startDate`. -/
def closeOpenServer (dev slotId : String) (sd : Date) :
    List HabitSegment → List HabitSegment
  | [] => []
  | g :: gs =>
      if isOpenFor dev slotId g then
        (if dateLt g.startDate sd then { g with endDate := some (prevDay sd) } else g) :: gs
      else g :: closeOpenServer dev slotId sd gs

/-- `createSegment` of the client offline engine. -/
def clientCreateSegment (st : AppState) (dev slotId name color : String) (sd : Date)
    (newId : String) : AppState × HabitSegment :=
  let g : HabitSegment := ⟨newId, dev, slotId, name, color, sd, none, 0, none⟩
  ({ st with segments := closeOpenClient dev slotId sd st.segments ++ [g] }, g)

/-- `POST /api/segments` of the server engine. -/
def serverCreateSegment (st : AppState) (dev slotId name color : String) (sd : Date)
    (newId : String) : AppState × HabitSegment :=
  let g : HabitSegment := ⟨newId, dev, slotId, name, color, sd, none, 0, none⟩
  ({ st with segments := closeOpenServer dev slotId sd st.segments ++ [g] }, g)

/-- `deleteSlot` of the client offline engine (src/services/api.ts): removes
the slot and its segments; "Entries cleanup skipped for offline mock
simplicity" (source comment), so entries are returned untouched. -/
def clientDeleteSlot (st : AppState) (slotId : String) : AppState :=
  { slots := st.slots.filter (fun s => !(s._id == slotId)),
    segments := st.segments.filter (fun g => !(g.slotId == slotId)),
    entries := st.entries }

/-- `DELETE /api/slots/:id` of the server engine (src/server/index.js):
removes the slot, every segment of the slot, and every entry whose
`segmentId` is among those segments' ids. -/
def serverDeleteSlot (st : AppState) (slotId : String) : AppState :=
  let segIds := (st.segments.filter (fun g => g.slotId == slotId)).map (fun g => g._id)
  { slots := st.slots.filter (fun s => !(s._id == slotId)),
    segments := st.segments.filter (fun g => !(g.slotId == slotId)),
    entries := st.entries.filter (fun e => !(segIds.contains e.segmentId)) }

/-- Range membership `dStr >= seg.startDate && (seg.endDate === null || dStr
<= seg.endDate)` used throughout the Dashboard analytics. -/
def withinEnd (endDate : Option Date) (dt : Date) : Prop :=
  match endDate with
  | none => True
  | some e => dateLe dt e

instance (o : Option Date) (dt : Date) : Decidable (withinEnd o dt) :=
  match o with
  | none => isTrue trivial
  | some e => inferInstanceAs (Decidable (dateLe dt e))

/-- A segment is active on day `dt`. -/
def isActiveOn (g : HabitSegment) (dt : Date) : Prop :=
  dateLe g.startDate dt ∧ withinEnd g.endDate dt

instance (g : HabitSegment) (dt : Date) : Decidable (isActiveOn g dt) := by
  unfold isActiveOn; exact inferInstance

/-- One value of the Dashboard's `dailyMap`. -/
structure DayStat where
  total : Nat
  completed : Nat
deriving DecidableEq, Repr

/-- `dailyMap` initialisation: one `(day, zero counts)` pair per day of the
month, in day order (JS `Map` preserves insertion order). -/
def initDailyMap (days : List Date) : List (Date × DayStat) :=
  days.map (fun d => (d, ⟨0, 0⟩))

/-- `dailyMap.get(dStr).total++`: bump the total of the first matching key. -/
def bumpTotal (dt : Date) : List (Date × DayStat) → List (Date × DayStat)
  | [] => []
  | (k, s) :: rest =>
      if k = dt then (k, { s with total := s.total + 1 }) :: rest
      else (k, s) :: bumpTotal dt rest

/-- `dailyMap.get(date).completed++`: bump the completed count of the first
matching key. -/
def bumpCompleted (dt : Date) : List (Date × DayStat) → List (Date × DayStat)
  | [] => []
  | (k, s) :: rest =>
      if k = dt then (k, { s with completed := s.completed + 1 }) :: rest
      else (k, s) :: bumpCompleted dt rest

/-- Per-segment loop of the Dashboard analytics: bump `total` on every day on
which the segment is active. -/
def accumSegmentTotals (days : List Date) (g : HabitSegment)
    (m : List (Date × DayStat)) : List (Date × DayStat) :=
  days.foldl (fun m dt => if isActiveOn g dt then bumpTotal dt m else m) m

/-- `dailyMap.has(date)`. -/
def mapHasKey (m : List (Date × DayStat)) (dt : Date) : Bool :=
  m.any (fun p => decide (p.1 = dt))

/-- The Dashboard `analyticsData` daily map: initialise per day, bump `total`
per segment per active day, then bump `completed` for every completed entry
whose date is a key of the map — with no test that the entry belongs to an
active segment. -/
def buildDailyMap (days : List Date) (segments : List HabitSegment)
    (entries : List HabitEntry) : List (Date × DayStat) :=
  let m0 := initDailyMap days
  let m1 := segments.foldl (fun m g => accumSegmentTotals days g m) m0
  entries.foldl
    (fun m e =>
      if (mapHasKey m e.date && e.completed) = true then bumpCompleted e.date m else m) m1

/-- `dailyCompletion` of the Dashboard `analyticsData` memo:
`completed / total * 100` per day, `0` when `total = 0`. -/
def dailyCompletion (days : List Date) (segments : List HabitSegment)
    (entries : List HabitEntry) : List (Date × ℚ) :=
  (buildDailyMap days segments entries).map
    (fun p => (p.1, if p.2.total = 0 then 0 else (p.2.completed : ℚ) / p.2.total * 100))

/-- One element of the Dashboard's `habitStats`. -/
structure HabitStat where
  name : String
  rate : ℚ
deriving DecidableEq, Repr

/-- Per-segment loop of `habitStats`: over the days of the month, count active
days (`segPossible`) and active days having a completed entry of this segment
(`segCompleted`); rate is their ratio times 100, `0` for zero active days. -/
def habitStat (days : List Date) (entries : List HabitEntry) (g : HabitSegment) :
    HabitStat :=
  let p := days.foldl
    (fun acc dt =>
      if isActiveOn g dt then
        (acc.1 + 1,
         if entries.any (fun e =>
             e.segmentId == g._id && decide (e.date = dt) && e.completed) then
           acc.2 + 1
         else acc.2)
      else acc)
    ((0, 0) : Nat × Nat)
  ⟨g.name, if p.1 = 0 then 0 else (p.2 : ℚ) / p.1 * 100⟩

/-- Order used by the `sort((a, b) => b.rate - a.rate)` comparator: descending
by rate.  JS `Array.prototype.sort` is stable, which `insertionSort` with this
relation reproduces (ties keep original order). -/
def statOrder (a b : HabitStat) : Prop := b.rate ≤ a.rate

instance : DecidableRel statOrder :=
  fun a b => inferInstanceAs (Decidable (b.rate ≤ a.rate))

instance : IsTotal HabitStat statOrder :=
  ⟨fun a b => le_total b.rate a.rate⟩

instance : IsTrans HabitStat statOrder :=
  ⟨fun _ _ _ hab hbc => le_trans hbc hab⟩

/-- `topHabits` of the Dashboard `analyticsData` memo: per-segment stats,
sorted descending by rate (stably), truncated to the first 5. -/
def topHabits (days : List Date) (segments : List HabitSegment)
    (entries : List HabitEntry) : List HabitStat :=
  (List.insertionSort statOrder (segments.map (habitStat days entries))).take 5

/-- `nextMilestone` of the SlotRow component: the fixed ladder
7, 14, 21, 30, 60, 90, then `Math.ceil((streak + 1) / 100) * 100` (the last
expression is ceiling division on naturals). -/
def nextMilestone (streak : Nat) : Nat :=
  if streak < 7 then 7
  else if streak < 14 then 14
  else if streak < 21 then 21
  else if streak < 30 then 30
  else if streak < 60 then 60
  else if streak < 90 then 90
  else (streak + 1 + 99) / 100 * 100

/-- Two entries collide when they share the `(segmentId, date)` key. -/
def entryKeyClash (a b : HabitEntry) : Prop :=
  a.segmentId = b.segmentId ∧ a.date = b.date

instance (a b : HabitEntry) : Decidable (entryKeyClash a b) := by
  unfold entryKeyClash; exact inferInstance

/-- The §3 invariant: at most one entry per `(segmentId, date)` pair. -/
def EntriesUnique (l : List HabitEntry) : Prop :=
  l.Pairwise (fun a b => ¬ entryKeyClash a b)

instance (l : List HabitEntry) : Decidable (EntriesUnique l) := by
  unfold EntriesUnique; exact inferInstance

/-- Claim-side daily value (C3's words): `completed_count(D)` counts completed
entries on `D` belonging to segments active on `D`; divided by the number of
active segments, times 100; `0` with no active segment. -/
def specDailyValue (segments : List HabitSegment) (entries : List HabitEntry)
    (dt : Date) : ℚ :=
  let active := segments.filter (fun g => decide (isActiveOn g dt))
  let comp := entries.filter (fun e =>
    decide (e.date = dt) && e.completed && active.any (fun g => g._id == e.segmentId))
  if active.length = 0 then 0 else (comp.length : ℚ) / active.length * 100

/-- Amended claim-side daily value: as `specDailyValue` but the numerator
counts every completed entry dated `D`, with no membership test against the
active segments — which is what the Dashboard code computes. -/
def amendedDailyValue (segments : List HabitSegment) (entries : List HabitEntry)
    (dt : Date) : ℚ :=
  let total := (segments.filter (fun g => decide (isActiveOn g dt))).length
  let comp := (entries.filter (fun e => decide (e.date = dt) && e.completed)).length
  if total = 0 then 0 else (comp : ℚ) / total * 100

/-- Claim-side habit rate (C7's words): completed days over active days within
the month, times 100; `0` for zero active days. -/
def specHabitRate (days : List Date) (entries : List HabitEntry)
    (g : HabitSegment) : ℚ :=
  let act := (days.filter (fun dt => decide (isActiveOn g dt))).length
  let comp := (days.filter (fun dt =>
    decide (isActiveOn g dt) &&
      entries.any (fun e =>
        e.segmentId == g._id && decide (e.date = dt) && e.completed))).length
  if act = 0 then 0 else (comp : ℚ) / act * 100

/-- `k`-fold application of `prevDay`: the calendar day `k` days earlier. -/
def prevDayIter : Nat → Date → Date
  | 0, x => x
  | k + 1, x => prevDayIter k (prevDay x)

/-- `d` is a completed date of segment `segId` in `entries`. -/
def completedDateFor (entries : List HabitEntry) (segId : String) (d : Date) : Prop :=
  ∃ e ∈ entries, e.segmentId = segId ∧ e.completed = true ∧ e.date = d

/-- Claim-side streak description (C1's words): `last` is the most recent
completed date (`none` with streak 0 if there are none); the streak counts
the consecutive calendar days `last, last - 1, ...` that are all completed,
stopping at the first gap. -/
def streakSpec (entries : List HabitEntry) (segId : String) (s : Nat)
    (last : Option Date) : Prop :=
  (last = none → s = 0 ∧ ∀ d, ¬ completedDateFor entries segId d) ∧
  (∀ d, last = some d →
    completedDateFor entries segId d ∧
    (∀ d', completedDateFor entries segId d' → dateLe d' d) ∧
    1 ≤ s ∧
    (∀ j, j < s → completedDateFor entries segId (prevDayIter j d)) ∧
    ¬ completedDateFor entries segId (prevDayIter s d))

/-- A small concrete state: one segment `s1` of device `d1` with completed
entries on 2024-03-09, 2024-03-08 and 2024-03-06 (a gap at 2024-03-07). -/
def exampleState : AppState :=
  { slots := [],
    segments := [⟨"s1", "d1", "l1", "Reading", "#3B82F6", ⟨2024, 3, 1⟩, none, 0, none⟩],
    entries :=
      [⟨"e1", "d1", "s1", ⟨2024, 3, 9⟩, true⟩,
       ⟨"e2", "d1", "s1", ⟨2024, 3, 8⟩, true⟩,
       ⟨"e3", "d1", "s1", ⟨2024, 3, 6⟩, true⟩] }

/-! ## Theorems -/

section DateLemmas

theorem daysInMonthCount_bounds (y m : Nat) :
    28 ≤ daysInMonthCount y m ∧ daysInMonthCount y m ≤ 31 := by
  unfold daysInMonthCount
  split_ifs <;> omega

theorem dateLe_refl (a : Date) : dateLe a a := by
  unfold dateLe; omega

theorem dateLe_trans {a b c : Date} (h1 : dateLe a b) (h2 : dateLe b c) :
    dateLe a c := by
  unfold dateLe at *; omega

theorem dateLt_trans {a b c : Date} (h1 : dateLt a b) (h2 : dateLt b c) :
    dateLt a c := by
  unfold dateLt at *; omega

theorem dateLt_of_lt_of_le {a b c : Date} (h1 : dateLt a b) (h2 : dateLe b c) :
    dateLt a c := by
  unfold dateLt dateLe at *; omega

theorem dateLe_of_lt {a b : Date} (h : dateLt a b) : dateLe a b := by
  unfold dateLt dateLe at *; omega

theorem dateLt_irrefl (a : Date) : ¬ dateLt a a := by
  unfold dateLt; omega

theorem dateLt_ne {a b : Date} (h : dateLt a b) : a ≠ b := by
  intro he; subst he; exact dateLt_irrefl a h

theorem dateLe_antisymm {a b : Date} (h1 : dateLe a b) (h2 : dateLe b a) :
    a = b := by
  obtain ⟨ay, am, ad⟩ := a
  obtain ⟨by', bm, bd⟩ := b
  unfold dateLe at h1 h2
  dsimp only at h1 h2
  simp only [Date.mk.injEq]
  omega

theorem dateLe_total (a b : Date) : dateLe a b ∨ dateLe b a := by
  unfold dateLe; omega

theorem dateLt_or_le (a b : Date) : dateLt a b ∨ dateLe b a := by
  unfold dateLt dateLe; omega

theorem prevDay_lt {x : Date} (hx : validDate x) : dateLt (prevDay x) x := by
  obtain ⟨hy, hm1, hm2, hd1, hd2⟩ := hx
  unfold prevDay dateLt
  split_ifs <;> simp <;> omega

/-- `prevDay x` is the immediate predecessor of `x` among well-formed dates:
any well-formed date strictly below `x` is at most `prevDay x`. -/
theorem dateLt_le_prevDay {b x : Date} (hb : validDate b) (h : dateLt b x) :
    dateLe b (prevDay x) := by
  obtain ⟨hby, hbm1, hbm2, hbd1, hbd2⟩ := hb
  unfold prevDay
  split_ifs with h1 h2
  · unfold dateLt at h; unfold dateLe; dsimp only; omega
  · unfold dateLt at h; unfold dateLe; dsimp only
    rcases eq_or_ne b.y x.y with hy | hy
    · rcases eq_or_ne b.m (x.m - 1) with hm | hm
      · right
        refine ⟨hy, Or.inr ⟨hm, ?_⟩⟩
        have hce : daysInMonthCount b.y b.m = daysInMonthCount x.y (x.m - 1) := by
          rw [hy, hm]
        omega
      · omega
    · omega
  · unfold dateLt at h; unfold dateLe; dsimp only
    have hbc := daysInMonthCount_bounds b.y b.m
    omega

theorem prevDay_valid {x : Date} (hx : validDate x) (hnot : x ≠ ⟨1, 1, 1⟩) :
    validDate (prevDay x) := by
  obtain ⟨hy, hm1, hm2, hd1, hd2⟩ := hx
  have hc1 := daysInMonthCount_bounds x.y (x.m - 1)
  have hcx : daysInMonthCount (x.y - 1) 12 = 31 := by unfold daysInMonthCount; norm_num
  unfold prevDay
  split_ifs with h1 h2
  · unfold validDate; dsimp only; omega
  · unfold validDate; dsimp only; omega
  · unfold validDate; dsimp only
    rw [hcx]
    have hxy : 1 < x.y := by
      rcases Nat.lt_or_ge 1 x.y with h | h
      · exact h
      · exfalso
        apply hnot
        have hy1 : x.y = 1 := by omega
        have hm1' : x.m = 1 := by omega
        have hd1' : x.d = 1 := by omega
        obtain ⟨xy, xm, xd⟩ := x
        dsimp only at hy1 hm1' hd1'
        simp only [Date.mk.injEq]
        exact ⟨hy1, hm1', hd1'⟩
    omega

end DateLemmas

section Milestone

/-- C9: For every non-negative streak value `s`, the computed next milestone
is the next value of the ladder strictly above `s`: 7 if `s < 7`, 14 if
`7 ≤ s < 14`, 21 if `14 ≤ s < 21`, 30 if `21 ≤ s < 30`, 60 if `30 ≤ s < 60`,
90 if `60 ≤ s < 90`, and for `s ≥ 90` the smallest multiple of 100 strictly
greater than `s`. -/
theorem nextMilestone_spec (s : Nat) :
    (s < 7 → nextMilestone s = 7) ∧
    (7 ≤ s → s < 14 → nextMilestone s = 14) ∧
    (14 ≤ s → s < 21 → nextMilestone s = 21) ∧
    (21 ≤ s → s < 30 → nextMilestone s = 30) ∧
    (30 ≤ s → s < 60 → nextMilestone s = 60) ∧
    (60 ≤ s → s < 90 → nextMilestone s = 90) ∧
    (90 ≤ s →
      100 ∣ nextMilestone s ∧ s < nextMilestone s ∧
      ∀ k, 100 ∣ k → s < k → nextMilestone s ≤ k) := by
  refine ⟨fun h1 => by unfold nextMilestone; split_ifs <;> omega,
    fun h1 h2 => by unfold nextMilestone; split_ifs <;> omega,
    fun h1 h2 => by unfold nextMilestone; split_ifs <;> omega,
    fun h1 h2 => by unfold nextMilestone; split_ifs <;> omega,
    fun h1 h2 => by unfold nextMilestone; split_ifs <;> omega,
    fun h1 h2 => by unfold nextMilestone; split_ifs <;> omega,
    fun h90 => ?_⟩
  have hdm := Nat.div_add_mod s 100
  have hml : s % 100 < 100 := Nat.mod_lt s (by norm_num)
  have hceil : s + 1 + 99 = s + 100 := by omega
  have hdiv : (s + 100) / 100 = s / 100 + 1 := Nat.add_div_right s (by norm_num)
  unfold nextMilestone
  split_ifs <;> try omega
  rw [hceil, hdiv]
  refine ⟨⟨s / 100 + 1, by ring⟩, by omega, ?_⟩
  rintro k ⟨j, rfl⟩ hk
  have hj : s / 100 < j := by omega
  omega

/-- Witness for C9 at the concrete streak 95. -/
theorem nextMilestone_spec_witness :
    (90 : Nat) ≤ 95 ∧ nextMilestone 95 = 100 := by
  have h := (nextMilestone_spec 95).2.2.2.2.2.2 (by norm_num)
  refine ⟨by norm_num, ?_⟩
  have h100 : nextMilestone 95 ≤ 100 := h.2.2 100 ⟨1, rfl⟩ (by norm_num)
  have h95 : 95 < nextMilestone 95 := h.2.1
  have hdvd := h.1
  omega

end Milestone

section DaysInMonth

theorem goDays_nil {c e : Date} (h : ¬ dateLe c e) (fuel : Nat) :
    goDays e fuel c = [] := by
  cases fuel with
  | zero => rfl
  | succ fuel => simp [goDays, h]

theorem goDays_spec (y m : Nat) :
    ∀ fuel d, 1 ≤ d → d ≤ daysInMonthCount y m →
      daysInMonthCount y m + 1 - d ≤ fuel →
      goDays ⟨y, m, daysInMonthCount y m⟩ fuel ⟨y, m, d⟩ =
        (List.range (daysInMonthCount y m + 1 - d)).map (fun i => ⟨y, m, d + i⟩) := by
  intro fuel
  induction fuel with
  | zero =>
    intro d h1 h2 hf
    exact absurd hf (by omega)
  | succ fuel ih =>
    intro d h1 h2 hf
    have hle : dateLe ⟨y, m, d⟩ ⟨y, m, daysInMonthCount y m⟩ := by
      unfold dateLe; dsimp only; omega
    simp only [goDays, if_pos hle]
    rcases eq_or_lt_of_le h2 with he | hlt
    · have haddEq : addDay ⟨y, m, d⟩ = if m < 12 then ⟨y, m + 1, 1⟩ else ⟨y + 1, 1, 1⟩ := by
        unfold addDay; dsimp only
        rw [if_neg (by omega)]
      have hnle : ¬ dateLe (addDay ⟨y, m, d⟩) ⟨y, m, daysInMonthCount y m⟩ := by
        rw [haddEq]
        split_ifs <;> unfold dateLe <;> dsimp only <;> omega
      rw [goDays_nil hnle]
      rw [show daysInMonthCount y m + 1 - d = 1 from by omega]
      simp [List.range_succ]
    · have haddEq : addDay ⟨y, m, d⟩ = ⟨y, m, d + 1⟩ := by
        unfold addDay; dsimp only
        rw [if_pos hlt]
      have ha1 : 1 ≤ d + 1 := by omega
      have ha2 : d + 1 ≤ daysInMonthCount y m := by omega
      have ha3 : daysInMonthCount y m + 1 - (d + 1) ≤ fuel := by omega
      rw [haddEq, ih (d + 1) ha1 ha2 ha3]
      have hn : daysInMonthCount y m + 1 - d = (daysInMonthCount y m - d) + 1 := by omega
      have hn2 : daysInMonthCount y m + 1 - (d + 1) = daysInMonthCount y m - d := by omega
      rw [hn, hn2, List.range_succ_eq_map]
      simp only [List.map_cons, List.map_map]
      congr 1
      apply List.map_congr_left
      intro i _
      simp only [Function.comp_apply, Date.mk.injEq, Nat.succ_eq_add_one, true_and]
      omega

theorem getDaysInMonth_eq (a : Date) :
    getDaysInMonth a =
      (List.range (daysInMonthCount a.y a.m)).map (fun i => ⟨a.y, a.m, i + 1⟩) := by
  have hb := daysInMonthCount_bounds a.y a.m
  unfold getDaysInMonth
  have h11 : 1 ≤ daysInMonthCount a.y a.m := by omega
  have h40 : daysInMonthCount a.y a.m + 1 - 1 ≤ 40 := by omega
  rw [goDays_spec a.y a.m 40 1 (le_refl 1) h11 h40]
  rw [show daysInMonthCount a.y a.m + 1 - 1 = daysInMonthCount a.y a.m from by omega]
  apply List.map_congr_left
  intro i _
  simp only [Date.mk.injEq, true_and]
  omega

/-- C8: For every month anchor (including February in leap and non-leap
years), `getDaysInMonth` returns exactly the calendar-correct number of days
(28 or 29 for February by the Gregorian rule, 30 or 31 otherwise), as a
contiguous ascending sequence of dates starting on day 1 of that month and
ending on its last day. -/
theorem getDaysInMonth_spec (a : Date) (hm1 : 1 ≤ a.m) (hm2 : a.m ≤ 12) :
    (getDaysInMonth a).length = daysInMonthCount a.y a.m ∧
    (∀ i (h : i < (getDaysInMonth a).length),
      (getDaysInMonth a).get ⟨i, h⟩ = ⟨a.y, a.m, i + 1⟩) ∧
    (a.m = 2 →
      ((a.y % 4 = 0 ∧ (a.y % 100 ≠ 0 ∨ a.y % 400 = 0)) →
        daysInMonthCount a.y a.m = 29) ∧
      (¬ (a.y % 4 = 0 ∧ (a.y % 100 ≠ 0 ∨ a.y % 400 = 0)) →
        daysInMonthCount a.y a.m = 28)) ∧
    (a.m ≠ 2 → daysInMonthCount a.y a.m = 30 ∨ daysInMonthCount a.y a.m = 31) := by
  have heq := getDaysInMonth_eq a
  refine ⟨?_, ?_, ?_, ?_⟩
  · rw [heq]; simp
  · intro i h
    have h' : i < daysInMonthCount a.y a.m := by
      rw [heq] at h; simpa using h
    rw [List.get_of_eq heq]
    simp
  · intro h2
    have hleap : isLeapYear a.y = true ↔
        (a.y % 4 = 0 ∧ (a.y % 100 ≠ 0 ∨ a.y % 400 = 0)) := by
      unfold isLeapYear
      simp [Bool.and_eq_true, beq_iff_eq, bne_iff_ne]
    constructor
    · intro hc
      unfold daysInMonthCount
      rw [if_pos h2, if_pos (hleap.mpr hc)]
    · intro hc
      unfold daysInMonthCount
      rw [if_pos h2, if_neg (fun hl => hc (hleap.mp hl))]
  · intro h2
    unfold daysInMonthCount
    rw [if_neg h2]
    split_ifs <;> omega

/-- Witness for C8 at the concrete leap-year anchor 2024-02-15: the month has
29 days and its 29th element is 2024-02-29. -/
theorem getDaysInMonth_spec_witness :
    (getDaysInMonth ⟨2024, 2, 15⟩).length = 29 := by
  have h := (getDaysInMonth_spec ⟨2024, 2, 15⟩ (by decide) (by decide)).1
  rw [h]
  decide

end DaysInMonth

section StreakLemmas

theorem date_eq_of_fields {a b : Date} (h1 : a.y = b.y) (h2 : a.m = b.m)
    (h3 : a.d = b.d) : a = b := by
  obtain ⟨ay, am, ad⟩ := a
  obtain ⟨by', bm, bd⟩ := b
  dsimp only at h1 h2 h3
  simp only [Date.mk.injEq]
  exact ⟨h1, h2, h3⟩

theorem dateLt_trichotomy (a b : Date) :
    dateLt a b ∨ (a.y = b.y ∧ a.m = b.m ∧ a.d = b.d) ∨ dateLt b a := by
  unfold dateLt; omega

theorem dateLe_not_lt {a b : Date} (h : dateLe a b) : ¬ dateLt b a := by
  unfold dateLe at h; unfold dateLt; omega

theorem dateLt_of_le_of_ne {a b : Date} (h : dateLe a b) (hne : a ≠ b) :
    dateLt a b := by
  rcases dateLt_trichotomy a b with h1 | h1 | h1
  · exact h1
  · exact absurd (date_eq_of_fields h1.1 h1.2.1 h1.2.2) hne
  · exact absurd h1 (dateLe_not_lt h)

theorem sortEntries_perm (l : List HabitEntry) :
    List.Perm (sortEntriesByDateDesc l) l :=
  List.perm_insertionSort _ l

theorem sortEntries_sorted (l : List HabitEntry) :
    List.Sorted (fun a b => dateLe b.date a.date) (sortEntriesByDateDesc l) :=
  List.sorted_insertionSort _ l

theorem mem_completedFilter {entries : List HabitEntry} {segId : String}
    {x : HabitEntry} :
    x ∈ entries.filter (fun e => e.segmentId == segId && e.completed) ↔
      x ∈ entries ∧ x.segmentId = segId ∧ x.completed = true := by
  simp [List.mem_filter]

theorem completedDateFor_iff {entries : List HabitEntry} {segId : String}
    {d : Date} :
    completedDateFor entries segId d ↔
      ∃ x ∈ entries.filter (fun e => e.segmentId == segId && e.completed),
        x.date = d := by
  unfold completedDateFor
  constructor
  · rintro ⟨e, he, h1, h2, h3⟩
    exact ⟨e, mem_completedFilter.mpr ⟨he, h1, h2⟩, h3⟩
  · rintro ⟨x, hx, hd⟩
    obtain ⟨hm, h1, h2⟩ := mem_completedFilter.mp hx
    exact ⟨x, hm, h1, h2, hd⟩

theorem entryKeyClash_symm {a b : HabitEntry} (h : ¬ entryKeyClash a b) :
    ¬ entryKeyClash b a := fun hc => h ⟨hc.1.symm, hc.2.symm⟩

/-- Under the one-entry-per-key invariant, the date-descending sort of a
segment's completed entries is strictly descending: all its dates differ. -/
theorem sorted_strict (entries : List HabitEntry) (segId : String)
    (hu : EntriesUnique entries) :
    List.Pairwise (fun a b => dateLt b.date a.date)
      (sortEntriesByDateDesc
        (entries.filter (fun e => e.segmentId == segId && e.completed))) := by
  have hsorted := sortEntries_sorted
    (entries.filter (fun e => e.segmentId == segId && e.completed))
  have hperm := sortEntries_perm
    (entries.filter (fun e => e.segmentId == segId && e.completed))
  have hclash_fl : List.Pairwise (fun a b => ¬ entryKeyClash a b)
      (entries.filter (fun e => e.segmentId == segId && e.completed)) :=
    hu.sublist (List.filter_sublist _)
  have hclash : List.Pairwise (fun a b => ¬ entryKeyClash a b)
      (sortEntriesByDateDesc
        (entries.filter (fun e => e.segmentId == segId && e.completed))) := by
    refine (List.Perm.pairwise_iff ?_ hperm).mpr hclash_fl
    intro a b h
    exact entryKeyClash_symm h
  refine (hsorted.and hclash).imp_of_mem ?_
  intro a b ha hb h
  obtain ⟨hle, hnc⟩ := h
  have haf := mem_completedFilter.mp (hperm.mem_iff.mp ha)
  have hbf := mem_completedFilter.mp (hperm.mem_iff.mp hb)
  refine dateLt_of_le_of_ne hle ?_
  intro hd
  exact hnc ⟨haf.2.1.trans hbf.2.1.symm, hd.symm⟩

theorem prevDayIter_zero (x : Date) : prevDayIter 0 x = x := rfl

theorem prevDayIter_succ (k : Nat) (x : Date) :
    prevDayIter (k + 1) x = prevDayIter k (prevDay x) := rfl

/-- What the streak walk computes on a strictly descending list of well-formed
dates below `curr`: it finds exactly the maximal run of consecutive previous
days of `curr` present in the list, and the day after the run is absent. -/
theorem streakWalk_spec :
    ∀ (l : List HabitEntry) (curr : Date),
      validDate curr →
      (∀ x ∈ l, validDate x.date) →
      List.Pairwise (fun a b => dateLt b.date a.date) l →
      (∀ x ∈ l, dateLt x.date curr) →
      (∀ j, 1 ≤ j → j ≤ streakWalk curr l →
          prevDayIter j curr ∈ l.map (fun e => e.date)) ∧
      prevDayIter (streakWalk curr l + 1) curr ∉ l.map (fun e => e.date) ∧
      (∀ j, 1 ≤ j → j ≤ streakWalk curr l + 1 → dateLt (prevDayIter j curr) curr) := by
  intro l
  induction l with
  | nil =>
    intro curr hc _ _ _
    refine ⟨?_, by simp, ?_⟩
    · intro j h1 h2
      simp only [streakWalk] at h2
      omega
    · intro j h1 h2
      have hj : j = 1 := by simp only [streakWalk] at h2; omega
      subst hj
      exact prevDay_lt hc
  | cons e es ih =>
    intro curr hc hv hp hlt
    have hve : validDate e.date := hv e (by simp)
    by_cases hdd : e.date = prevDay curr
    · have hwalk : streakWalk curr (e :: es) = 1 + streakWalk (prevDay curr) es := by
        simp [streakWalk, hdd]
      have hc' : validDate (prevDay curr) := hdd ▸ hve
      have hv' : ∀ x ∈ es, validDate x.date := fun x hx => hv x (by simp [hx])
      have hp' : List.Pairwise (fun a b => dateLt b.date a.date) es :=
        List.Pairwise.of_cons hp
      have hlt' : ∀ x ∈ es, dateLt x.date (prevDay curr) := by
        intro x hx
        have h := (List.pairwise_cons.mp hp).1 x hx
        rwa [hdd] at h
      obtain ⟨ih1, ih2, ih3⟩ := ih (prevDay curr) hc' hv' hp' hlt'
      refine ⟨?_, ?_, ?_⟩
      · intro j h1 h2
        rw [hwalk] at h2
        rcases j with _ | j
        · omega
        rcases j with _ | j
        · exact List.mem_cons.mpr (Or.inl hdd.symm)
        · have hmem := ih1 (j + 1) (by omega) (by omega)
          rw [prevDayIter_succ]
          simp only [List.map_cons, List.mem_cons]
          exact Or.inr hmem
      · have hidx : streakWalk curr (e :: es) + 1 =
            streakWalk (prevDay curr) es + 1 + 1 := by rw [hwalk]; omega
        rw [hidx, prevDayIter_succ]
        simp only [List.map_cons, List.mem_cons, not_or]
        refine ⟨?_, ih2⟩
        have hlt2 := ih3 (streakWalk (prevDay curr) es + 1) (by omega) (le_refl _)
        rw [hdd]
        exact dateLt_ne hlt2
      · intro j h1 h2
        rw [hwalk] at h2
        rcases j with _ | j
        · omega
        rcases j with _ | j
        · exact prevDay_lt hc
        · rw [prevDayIter_succ]
          have hlt2 := ih3 (j + 1) (by omega) (by omega)
          exact dateLt_trans hlt2 (prevDay_lt hc)
    · have hwalk : streakWalk curr (e :: es) = 0 := by
        simp [streakWalk, hdd]
      refine ⟨?_, ?_, ?_⟩
      · intro j h1 h2
        rw [hwalk] at h2
        omega
      · rw [hwalk]
        simp only [List.map_cons, List.mem_cons, not_or]
        constructor
        · intro h
          exact hdd (h.symm)
        · intro hmem
          obtain ⟨x, hx, hxd⟩ := List.mem_map.mp hmem
          have hpx := (List.pairwise_cons.mp hp).1 x hx
          have hle : dateLe e.date (prevDay curr) :=
            dateLt_le_prevDay hve (hlt e (by simp))
          have hxd' : x.date = prevDay curr := hxd
          rw [← hxd'] at hle
          exact dateLe_not_lt hle hpx
      · intro j h1 h2
        rw [hwalk] at h2
        have hj : j = 1 := by omega
        subst hj
        exact prevDay_lt hc

/-- The recomputed streak satisfies the claim-side description, for any entry
collection of well-formed dates satisfying the one-entry-per-key invariant. -/
theorem recomputeStreak_spec (entries : List HabitEntry) (segId : String)
    (hv : ∀ e ∈ entries, validDate e.date) (hu : EntriesUnique entries) :
    streakSpec entries segId (recomputeStreak entries segId).1
      (recomputeStreak entries segId).2 := by
  have hperm := sortEntries_perm
    (entries.filter (fun e => e.segmentId == segId && e.completed))
  have hsorted := sortEntries_sorted
    (entries.filter (fun e => e.segmentId == segId && e.completed))
  have hstrict := sorted_strict entries segId hu
  rcases hq : sortEntriesByDateDesc
      (entries.filter (fun e => e.segmentId == segId && e.completed)) with
    _ | ⟨first, rest⟩
  · have hres : recomputeStreak entries segId = (0, none) := by
      simp only [recomputeStreak, hq]
    rw [hres]
    constructor
    · intro _
      refine ⟨rfl, ?_⟩
      intro d hd
      obtain ⟨x, hx, _⟩ := completedDateFor_iff.mp hd
      have hmem := hperm.mem_iff.mpr hx
      rw [hq] at hmem
      simp at hmem
    · intro d hd
      simp at hd
  · rw [hq] at hperm hsorted hstrict
    have hres : recomputeStreak entries segId =
        (1 + streakWalk first.date rest, some first.date) := by
      simp only [recomputeStreak, hq]
    rw [hres]
    have hfirst_fl := hperm.mem_iff.mp (List.mem_cons_self first rest)
    have hfirst := mem_completedFilter.mp hfirst_fl
    have hvfl : ∀ x ∈ rest, validDate x.date := by
      intro x hx
      have hmem := hperm.mem_iff.mp (List.mem_cons.mpr (Or.inr hx))
      exact hv x (mem_completedFilter.mp hmem).1
    have hrest_lt : ∀ x ∈ rest, dateLt x.date first.date :=
      (List.pairwise_cons.mp hstrict).1
    have hrest_strict := List.Pairwise.of_cons hstrict
    obtain ⟨hw1, hw2, hw3⟩ := streakWalk_spec rest first.date
      (hv first hfirst.1) hvfl hrest_strict hrest_lt
    constructor
    · intro h
      simp at h
    · intro d hd
      have hd' : d = first.date := by
        simpa using hd.symm
      subst hd'
      refine ⟨?_, ?_, by omega, ?_, ?_⟩
      · exact completedDateFor_iff.mpr ⟨first, hfirst_fl, rfl⟩
      · intro d' hd'
        obtain ⟨x, hx, hxd⟩ := completedDateFor_iff.mp hd'
        have hmem := hperm.mem_iff.mpr hx
        rcases List.mem_cons.mp hmem with h | h
        · subst h; rw [hxd]; exact dateLe_refl _
        · have := hrest_lt x h
          rw [hxd] at this
          exact dateLe_of_lt this
      · intro j hj
        rcases j with _ | j
        · exact completedDateFor_iff.mpr ⟨first, hfirst_fl, rfl⟩
        · have hjw : j + 1 ≤ streakWalk first.date rest := by omega
          have hmem := hw1 (j + 1) (by omega) hjw
          obtain ⟨x, hx, hxd⟩ := List.mem_map.mp hmem
          refine completedDateFor_iff.mpr ⟨x, ?_, hxd⟩
          exact hperm.mem_iff.mp (List.mem_cons.mpr (Or.inr hx))
      · intro hcomp
        obtain ⟨x, hx, hxd⟩ := completedDateFor_iff.mp hcomp
        have hmem := hperm.mem_iff.mpr hx
        have hidx : 1 + streakWalk first.date rest =
            streakWalk first.date rest + 1 := by omega
        rw [hidx] at hxd
        rcases List.mem_cons.mp hmem with h | h
        · rw [h] at hxd
          have hlt2 := hw3 (streakWalk first.date rest + 1) (by omega) (le_refl _)
          rw [← hxd] at hlt2
          exact dateLt_irrefl _ hlt2
        · exact hw2 (List.mem_map.mpr ⟨x, h, hxd⟩)

end StreakLemmas

section UpsertLemmas

theorem clientUpsert_keys (dev seg : String) (dt : Date) (c : Bool) (newId : String) :
    ∀ es b, b ∈ (clientUpsertEntry dev seg dt c newId es).1 →
      (∃ b0 ∈ es, b.segmentId = b0.segmentId ∧ b.date = b0.date) ∨
        (b.segmentId = seg ∧ b.date = dt) := by
  intro es
  induction es with
  | nil =>
    intro b hb
    simp only [clientUpsertEntry, List.mem_singleton] at hb
    subst hb
    exact Or.inr ⟨rfl, rfl⟩
  | cons e es ih =>
    intro b hb
    by_cases hk : e.segmentId = seg ∧ e.date = dt
    · simp only [clientUpsertEntry, if_pos hk] at hb
      rcases List.mem_cons.mp hb with h | h
      · subst h
        exact Or.inr ⟨hk.1, hk.2⟩
      · exact Or.inl ⟨b, List.mem_cons.mpr (Or.inr h), rfl, rfl⟩
    · simp only [clientUpsertEntry, if_neg hk] at hb
      rcases List.mem_cons.mp hb with h | h
      · subst h
        exact Or.inl ⟨b, List.mem_cons_self b es, rfl, rfl⟩
      · rcases ih b h with ⟨b0, hb0, h1, h2⟩ | hnew
        · exact Or.inl ⟨b0, List.mem_cons.mpr (Or.inr hb0), h1, h2⟩
        · exact Or.inr hnew

theorem clientUpsert_unique (dev seg : String) (dt : Date) (c : Bool) (newId : String) :
    ∀ es, EntriesUnique es → EntriesUnique (clientUpsertEntry dev seg dt c newId es).1 := by
  intro es
  induction es with
  | nil =>
    intro _
    simp [clientUpsertEntry, EntriesUnique]
  | cons e es ih =>
    intro hu
    have hu' : EntriesUnique es := List.Pairwise.of_cons hu
    have hhead := (List.pairwise_cons.mp hu).1
    by_cases hk : e.segmentId = seg ∧ e.date = dt
    · show EntriesUnique _
      simp only [clientUpsertEntry, if_pos hk]
      refine List.pairwise_cons.mpr ⟨?_, hu'⟩
      intro b hb hc
      exact hhead b hb ⟨hc.1, hc.2⟩
    · show EntriesUnique _
      simp only [clientUpsertEntry, if_neg hk]
      refine List.pairwise_cons.mpr ⟨?_, ih hu'⟩
      intro b hb hc
      rcases clientUpsert_keys dev seg dt c newId es b hb with ⟨b0, hb0, h1, h2⟩ | ⟨h1, h2⟩
      · exact hhead b0 hb0 ⟨hc.1.trans h1, hc.2.trans h2⟩
      · exact hk ⟨hc.1.trans h1, hc.2.trans h2⟩

theorem clientUpsert_key_filter (dev seg : String) (dt : Date) (c : Bool) (newId : String) :
    ∀ es, EntriesUnique es →
      (clientUpsertEntry dev seg dt c newId es).1.filter
          (fun b => decide (b.segmentId = seg ∧ b.date = dt)) =
        [(clientUpsertEntry dev seg dt c newId es).2] ∧
      (clientUpsertEntry dev seg dt c newId es).2.segmentId = seg ∧
      (clientUpsertEntry dev seg dt c newId es).2.date = dt ∧
      (clientUpsertEntry dev seg dt c newId es).2.completed = c := by
  intro es
  induction es with
  | nil =>
    intro _
    refine ⟨?_, rfl, rfl, rfl⟩
    simp [clientUpsertEntry]
  | cons e es ih =>
    intro hu
    have hu' : EntriesUnique es := List.Pairwise.of_cons hu
    have hhead := (List.pairwise_cons.mp hu).1
    by_cases hk : e.segmentId = seg ∧ e.date = dt
    · have h1 : (clientUpsertEntry dev seg dt c newId (e :: es)).1 =
          { e with completed := c } :: es := by
        simp only [clientUpsertEntry, if_pos hk]
      have h2 : (clientUpsertEntry dev seg dt c newId (e :: es)).2 =
          { e with completed := c } := by
        simp only [clientUpsertEntry, if_pos hk]
      have hnil : es.filter (fun b => decide (b.segmentId = seg ∧ b.date = dt)) = [] := by
        rw [List.filter_eq_nil]
        intro b hb
        simp only [decide_eq_true_eq]
        intro hbk
        exact hhead b hb ⟨hk.1.trans hbk.1.symm, hk.2.trans hbk.2.symm⟩
      rw [h1, h2]
      refine ⟨?_, hk.1, hk.2, rfl⟩
      rw [List.filter_cons_of_pos (by simp [hk.1, hk.2]), hnil]
    · have h1 : (clientUpsertEntry dev seg dt c newId (e :: es)).1 =
          e :: (clientUpsertEntry dev seg dt c newId es).1 := by
        simp only [clientUpsertEntry, if_neg hk]
      have h2 : (clientUpsertEntry dev seg dt c newId (e :: es)).2 =
          (clientUpsertEntry dev seg dt c newId es).2 := by
        simp only [clientUpsertEntry, if_neg hk]
      rw [h1, h2]
      refine ⟨?_, (ih hu').2.1, (ih hu').2.2.1, (ih hu').2.2.2⟩
      rw [List.filter_cons_of_neg (by simp only [decide_eq_true_eq]; exact hk)]
      exact (ih hu').1

theorem clientUpsert_nonkey_filter (dev seg : String) (dt : Date) (c : Bool)
    (newId : String) :
    ∀ es, (clientUpsertEntry dev seg dt c newId es).1.filter
        (fun b => !(decide (b.segmentId = seg ∧ b.date = dt))) =
      es.filter (fun b => !(decide (b.segmentId = seg ∧ b.date = dt))) := by
  intro es
  induction es with
  | nil =>
    simp [clientUpsertEntry]
  | cons e es ih =>
    by_cases hk : e.segmentId = seg ∧ e.date = dt
    · simp only [clientUpsertEntry, if_pos hk]
      rw [List.filter_cons_of_neg (by simp [hk.1, hk.2]),
        List.filter_cons_of_neg (by simp [hk.1, hk.2])]
    · simp only [clientUpsertEntry, if_neg hk]
      rw [List.filter_cons_of_pos (by simp only [Bool.not_eq_true', decide_eq_false_iff_not]; exact hk),
        List.filter_cons_of_pos (by simp only [Bool.not_eq_true', decide_eq_false_iff_not]; exact hk), ih]

theorem clientUpsert_exists_key (dev seg : String) (dt : Date) (c : Bool)
    (newId : String) :
    ∀ es, ∃ b ∈ (clientUpsertEntry dev seg dt c newId es).1,
      b.segmentId = seg ∧ b.date = dt ∧ b.completed = c := by
  intro es
  induction es with
  | nil =>
    exact ⟨⟨newId, dev, seg, dt, c⟩, by simp [clientUpsertEntry], rfl, rfl, rfl⟩
  | cons e es ih =>
    by_cases hk : e.segmentId = seg ∧ e.date = dt
    · refine ⟨{ e with completed := c }, ?_, hk.1, hk.2, rfl⟩
      simp only [clientUpsertEntry, if_pos hk]
      exact List.mem_cons_self _ _
    · obtain ⟨b, hb, hbp⟩ := ih
      refine ⟨b, ?_, hbp⟩
      simp only [clientUpsertEntry, if_neg hk]
      exact List.mem_cons.mpr (Or.inr hb)

theorem serverUpdateFirst_keys (dev seg : String) (dt : Date) (c : Bool) :
    ∀ es l ent, serverUpdateFirst dev seg dt c es = some (l, ent) →
      ∀ b ∈ l, ∃ b0 ∈ es, b.segmentId = b0.segmentId ∧ b.date = b0.date := by
  intro es
  induction es with
  | nil =>
    intro l ent h
    simp [serverUpdateFirst] at h
  | cons e es ih =>
    intro l ent h b hb
    by_cases hm : e.deviceId = dev ∧ e.segmentId = seg ∧ e.date = dt
    · simp only [serverUpdateFirst, if_pos hm, Option.some.injEq, Prod.mk.injEq] at h
      obtain ⟨hl, _⟩ := h
      subst hl
      rcases List.mem_cons.mp hb with hbe | hbe
      · subst hbe
        exact ⟨e, List.mem_cons_self e es, rfl, rfl⟩
      · exact ⟨b, List.mem_cons.mpr (Or.inr hbe), rfl, rfl⟩
    · simp only [serverUpdateFirst, if_neg hm, Option.map_eq_some'] at h
      obtain ⟨⟨l', ent'⟩, hrec, heq⟩ := h
      simp only [Prod.mk.injEq] at heq
      obtain ⟨hl, hent⟩ := heq
      subst hl
      rcases List.mem_cons.mp hb with hbe | hbe
      · subst hbe
        exact ⟨b, List.mem_cons_self b es, rfl, rfl⟩
      · obtain ⟨b0, hb0, hk⟩ := ih l' ent' hrec b hbe
        exact ⟨b0, List.mem_cons.mpr (Or.inr hb0), hk⟩

theorem serverUpdateFirst_matched (dev seg : String) (dt : Date) (c : Bool) :
    ∀ es l ent, serverUpdateFirst dev seg dt c es = some (l, ent) →
      ∃ x ∈ es, x.deviceId = dev ∧ x.segmentId = seg ∧ x.date = dt := by
  intro es
  induction es with
  | nil =>
    intro l ent h
    simp [serverUpdateFirst] at h
  | cons e es ih =>
    intro l ent h
    by_cases hm : e.deviceId = dev ∧ e.segmentId = seg ∧ e.date = dt
    · exact ⟨e, List.mem_cons_self e es, hm⟩
    · simp only [serverUpdateFirst, if_neg hm, Option.map_eq_some'] at h
      obtain ⟨⟨l', ent'⟩, hrec, _⟩ := h
      obtain ⟨x, hx, hxm⟩ := ih l' ent' hrec
      exact ⟨x, List.mem_cons.mpr (Or.inr hx), hxm⟩

theorem serverUpdateFirst_unique (dev seg : String) (dt : Date) (c : Bool) :
    ∀ es l ent, serverUpdateFirst dev seg dt c es = some (l, ent) →
      EntriesUnique es → EntriesUnique l := by
  intro es
  induction es with
  | nil =>
    intro l ent h
    simp [serverUpdateFirst] at h
  | cons e es ih =>
    intro l ent h hu
    have hu' : EntriesUnique es := List.Pairwise.of_cons hu
    have hhead := (List.pairwise_cons.mp hu).1
    by_cases hm : e.deviceId = dev ∧ e.segmentId = seg ∧ e.date = dt
    · simp only [serverUpdateFirst, if_pos hm, Option.some.injEq, Prod.mk.injEq] at h
      obtain ⟨hl, _⟩ := h
      subst hl
      refine List.pairwise_cons.mpr ⟨?_, hu'⟩
      intro b hb hc
      exact hhead b hb ⟨hc.1, hc.2⟩
    · simp only [serverUpdateFirst, if_neg hm, Option.map_eq_some'] at h
      obtain ⟨⟨l', ent'⟩, hrec, heq⟩ := h
      simp only [Prod.mk.injEq] at heq
      obtain ⟨hl, _⟩ := heq
      subst hl
      refine List.pairwise_cons.mpr ⟨?_, ih l' ent' hrec hu'⟩
      intro b hb hc
      obtain ⟨b0, hb0, h1, h2⟩ := serverUpdateFirst_keys dev seg dt c es l' ent' hrec b hb
      exact hhead b0 hb0 ⟨hc.1.trans h1, hc.2.trans h2⟩

theorem serverUpdateFirst_key_filter (dev seg : String) (dt : Date) (c : Bool) :
    ∀ es l ent, serverUpdateFirst dev seg dt c es = some (l, ent) →
      EntriesUnique es →
      l.filter (fun b => decide (b.segmentId = seg ∧ b.date = dt)) = [ent] ∧
      ent.segmentId = seg ∧ ent.date = dt ∧ ent.completed = c := by
  intro es
  induction es with
  | nil =>
    intro l ent h
    simp [serverUpdateFirst] at h
  | cons e es ih =>
    intro l ent h hu
    have hu' : EntriesUnique es := List.Pairwise.of_cons hu
    have hhead := (List.pairwise_cons.mp hu).1
    by_cases hm : e.deviceId = dev ∧ e.segmentId = seg ∧ e.date = dt
    · simp only [serverUpdateFirst, if_pos hm, Option.some.injEq, Prod.mk.injEq] at h
      obtain ⟨hl, hent⟩ := h
      subst hl
      subst hent
      have hnil : es.filter (fun b => decide (b.segmentId = seg ∧ b.date = dt)) = [] := by
        rw [List.filter_eq_nil]
        intro b hb
        simp only [decide_eq_true_eq]
        intro hbk
        exact hhead b hb ⟨hm.2.1.trans hbk.1.symm, hm.2.2.trans hbk.2.symm⟩
      refine ⟨?_, hm.2.1, hm.2.2, rfl⟩
      rw [List.filter_cons_of_pos (by simp [hm.2.1, hm.2.2]), hnil]
    · simp only [serverUpdateFirst, if_neg hm, Option.map_eq_some'] at h
      obtain ⟨⟨l', ent'⟩, hrec, heq⟩ := h
      simp only [Prod.mk.injEq] at heq
      obtain ⟨hl, hent⟩ := heq
      subst hl
      subst hent
      obtain ⟨x, hx, hxm⟩ := serverUpdateFirst_matched dev seg dt c es l' ent' hrec
      have hek : ¬ (e.segmentId = seg ∧ e.date = dt) := by
        intro hbk
        exact hhead x hx ⟨hbk.1.trans hxm.2.1.symm, hbk.2.trans hxm.2.2.symm⟩
      obtain ⟨hfl, hp1, hp2, hp3⟩ := ih l' ent' hrec hu'
      refine ⟨?_, hp1, hp2, hp3⟩
      rw [List.filter_cons_of_neg (by simp only [decide_eq_true_eq]; exact hek), hfl]

theorem serverUpsert_ok_unique (dev seg : String) (dt : Date) (c : Bool)
    (newId : String) (es : List HabitEntry) (r : List HabitEntry × HabitEntry)
    (h : serverUpsertEntry dev seg dt c newId es = .ok r)
    (hu : EntriesUnique es) : EntriesUnique r.1 := by
  unfold serverUpsertEntry at h
  cases hm : serverUpdateFirst dev seg dt c es with
  | some r0 =>
    rw [hm] at h
    simp only [Except.ok.injEq] at h
    subst h
    exact serverUpdateFirst_unique dev seg dt c es r0.1 r0.2 hm hu
  | none =>
    rw [hm] at h
    by_cases ha : es.any (fun e => decide (e.segmentId = seg ∧ e.date = dt)) = true
    · rw [if_pos ha] at h
      simp at h
    · rw [if_neg ha] at h
      simp only [Except.ok.injEq] at h
      subst h
      have hnone : ∀ e ∈ es, ¬ (e.segmentId = seg ∧ e.date = dt) := by
        intro e he hk
        exact ha (List.any_eq_true.mpr ⟨e, he, by simpa using hk⟩)
      refine List.pairwise_append.mpr ⟨hu, List.pairwise_singleton _ _, ?_⟩
      intro a ha2 b hb hc
      rw [List.mem_singleton] at hb
      subst hb
      exact hnone a ha2 ⟨hc.1, hc.2⟩

theorem serverUpsert_ok_key_filter (dev seg : String) (dt : Date) (c : Bool)
    (newId : String) (es : List HabitEntry) (r : List HabitEntry × HabitEntry)
    (h : serverUpsertEntry dev seg dt c newId es = .ok r)
    (hu : EntriesUnique es) :
    r.1.filter (fun b => decide (b.segmentId = seg ∧ b.date = dt)) = [r.2] ∧
    r.2.segmentId = seg ∧ r.2.date = dt ∧ r.2.completed = c := by
  unfold serverUpsertEntry at h
  cases hm : serverUpdateFirst dev seg dt c es with
  | some r0 =>
    rw [hm] at h
    simp only [Except.ok.injEq] at h
    subst h
    exact serverUpdateFirst_key_filter dev seg dt c es r0.1 r0.2 hm hu
  | none =>
    rw [hm] at h
    by_cases ha : es.any (fun e => decide (e.segmentId = seg ∧ e.date = dt)) = true
    · rw [if_pos ha] at h
      simp at h
    · rw [if_neg ha] at h
      simp only [Except.ok.injEq] at h
      subst h
      have hnone : es.filter (fun b => decide (b.segmentId = seg ∧ b.date = dt)) = [] := by
        rw [List.filter_eq_nil]
        intro b hb
        intro hbk
        exact ha (List.any_eq_true.mpr ⟨b, hb, hbk⟩)
      refine ⟨?_, rfl, rfl, rfl⟩
      rw [List.filter_append, hnone]
      simp

theorem serverUpsert_ok_dates (dev seg : String) (dt : Date) (c : Bool)
    (newId : String) (es : List HabitEntry) (r : List HabitEntry × HabitEntry)
    (h : serverUpsertEntry dev seg dt c newId es = .ok r) :
    ∀ b ∈ r.1, (∃ b0 ∈ es, b.date = b0.date) ∨ b.date = dt := by
  unfold serverUpsertEntry at h
  cases hm : serverUpdateFirst dev seg dt c es with
  | some r0 =>
    rw [hm] at h
    simp only [Except.ok.injEq] at h
    subst h
    intro b hb
    obtain ⟨b0, hb0, _, hbd⟩ := serverUpdateFirst_keys dev seg dt c es r0.1 r0.2 hm b hb
    exact Or.inl ⟨b0, hb0, hbd⟩
  | none =>
    rw [hm] at h
    by_cases ha : es.any (fun e => decide (e.segmentId = seg ∧ e.date = dt)) = true
    · rw [if_pos ha] at h
      simp at h
    · rw [if_neg ha] at h
      simp only [Except.ok.injEq] at h
      subst h
      intro b hb
      rcases List.mem_append.mp hb with hbe | hbe
      · exact Or.inl ⟨b, hbe, rfl⟩
      · rw [List.mem_singleton] at hbe
        subst hbe
        exact Or.inr rfl

end UpsertLemmas

section SegCacheLemmas

theorem updateSegCache_eq_of_not_mem (segId : String) (s : Nat) (lcd : Option Date) :
    ∀ gs, (∀ g ∈ gs, g._id ≠ segId) → updateSegCache segId s lcd gs = gs := by
  intro gs
  induction gs with
  | nil => intro _; rfl
  | cons g gs ih =>
    intro h
    have hg : ¬ g._id = segId := h g (List.mem_cons_self g gs)
    simp only [updateSegCache, if_neg hg]
    rw [ih (fun x hx => h x (List.mem_cons.mpr (Or.inr hx)))]

theorem updateSegCache_decomp (segId : String) (s : Nat) (lcd : Option Date) :
    ∀ pre g post, (∀ x ∈ pre, x._id ≠ segId) → g._id = segId →
      updateSegCache segId s lcd (pre ++ g :: post) =
        pre ++ { g with streak := s, lastCompletedDate := lcd } :: post := by
  intro pre
  induction pre with
  | nil =>
    intro g post _ hg
    simp only [List.nil_append, updateSegCache, if_pos hg]
  | cons x pre ih =>
    intro g post hpre hg
    have hx : ¬ x._id = segId := hpre x (List.mem_cons_self x pre)
    simp only [List.cons_append, updateSegCache, if_neg hx, List.append_eq]
    rw [ih g post (fun z hz => hpre z (List.mem_cons.mpr (Or.inr hz))) hg]

end SegCacheLemmas

section ToggleTheorems

/-- C1: For every ToggleEntry call (in both engines) the streak is recomputed
from scratch: `lastCompletedDate` is the most recent completed date of the
segment (absent with streak 0 if there are none) and the streak counts the
consecutive completed calendar days ending there, stopping at the first gap.
In particular, with completed dates D, D-1 and D-2 and a gap at D-3, toggling
D on reports streak 3 with `lastCompletedDate = D`, and toggling D off then
reports streak 2 with `lastCompletedDate = D-1` (instantiated at
D = 2024-03-10 on `exampleState`, whose completed dates are 03-09, 03-08 and
03-06). -/
theorem toggleEntry_streak_spec :
    (∀ (st : AppState) (dev segId : String) (dt : Date) (c : Bool) (newId : String),
      (∀ e ∈ st.entries, validDate e.date) → validDate dt → EntriesUnique st.entries →
      streakSpec (clientToggleEntry st dev segId dt c newId).1.entries segId
        (clientToggleEntry st dev segId dt c newId).2.2.1
        (clientToggleEntry st dev segId dt c newId).2.2.2) ∧
    (∀ (st : AppState) (dev segId : String) (dt : Date) (c : Bool) (newId : String)
        (out : AppState × HabitEntry × Nat × Option Date),
      (∀ e ∈ st.entries, validDate e.date) → validDate dt → EntriesUnique st.entries →
      serverToggleEntry st dev segId dt c newId = .ok out →
      streakSpec out.1.entries segId out.2.2.1 out.2.2.2) ∧
    ((clientToggleEntry exampleState "d1" "s1" ⟨2024, 3, 10⟩ true "n1").2.2 =
        (3, some ⟨2024, 3, 10⟩) ∧
      (clientToggleEntry (clientToggleEntry exampleState "d1" "s1" ⟨2024, 3, 10⟩ true "n1").1
          "d1" "s1" ⟨2024, 3, 10⟩ false "n2").2.2 = (2, some ⟨2024, 3, 9⟩)) ∧
    ((serverToggleEntry exampleState "d1" "s1" ⟨2024, 3, 10⟩ true "n1").map
        (fun out1 => (out1.2.2.1, out1.2.2.2,
          (serverToggleEntry out1.1 "d1" "s1" ⟨2024, 3, 10⟩ false "n2").map
            (fun out2 => (out2.2.2.1, out2.2.2.2)))) =
      Except.ok (3, some ⟨2024, 3, 10⟩, Except.ok (2, some ⟨2024, 3, 9⟩))) := by
  refine ⟨?_, ?_, by decide, by rfl⟩
  · intro st dev segId dt c newId hv hvd hu
    have hpu := clientUpsert_unique dev segId dt c newId st.entries hu
    have hpv : ∀ b ∈ (clientUpsertEntry dev segId dt c newId st.entries).1,
        validDate b.date := by
      intro b hb
      rcases clientUpsert_keys dev segId dt c newId st.entries b hb with
        ⟨b0, hb0, _, h2⟩ | ⟨_, h2⟩
      · rw [h2]; exact hv b0 hb0
      · rw [h2]; exact hvd
    exact recomputeStreak_spec (clientUpsertEntry dev segId dt c newId st.entries).1
      segId hpv hpu
  · intro st dev segId dt c newId out hv hvd hu hok
    unfold serverToggleEntry at hok
    cases hm : serverUpsertEntry dev segId dt c newId st.entries with
    | error msg =>
      rw [hm] at hok
      simp at hok
    | ok r =>
      rw [hm] at hok
      simp only [Except.ok.injEq] at hok
      subst hok
      have hpu := serverUpsert_ok_unique dev segId dt c newId st.entries r hm hu
      have hpv : ∀ b ∈ r.1, validDate b.date := by
        intro b hb
        rcases serverUpsert_ok_dates dev segId dt c newId st.entries r hm b hb with
          ⟨b0, hb0, h2⟩ | h2
        · rw [h2]; exact hv b0 hb0
        · rw [h2]; exact hvd
      exact recomputeStreak_spec r.1 segId hpv hpu

/-- Witness for C1: the general client characterization applied to the
concrete `exampleState` toggle. -/
theorem toggleEntry_streak_spec_witness :
    streakSpec (clientToggleEntry exampleState "d1" "s1" ⟨2024, 3, 10⟩ true "n1").1.entries
      "s1" (clientToggleEntry exampleState "d1" "s1" ⟨2024, 3, 10⟩ true "n1").2.2.1
      (clientToggleEntry exampleState "d1" "s1" ⟨2024, 3, 10⟩ true "n1").2.2.2 :=
  toggleEntry_streak_spec.1 exampleState "d1" "s1" ⟨2024, 3, 10⟩ true "n1"
    (by decide) (by decide) (by decide)

/-- C6: In both engines, at most one entry per `(segmentId, date)` pair is
ever kept — a toggle for an existing pair updates that entry in place — and
toggling the same pair `true` then `false` leaves exactly one entry for the
key, with `completed = false`. -/
theorem toggleEntry_unique_key :
    (∀ (st : AppState) (dev segId : String) (dt : Date) (c : Bool) (newId : String),
      EntriesUnique st.entries →
      EntriesUnique (clientToggleEntry st dev segId dt c newId).1.entries) ∧
    (∀ (st : AppState) (dev segId : String) (dt : Date) (c : Bool) (newId : String)
        (out : AppState × HabitEntry × Nat × Option Date),
      EntriesUnique st.entries →
      serverToggleEntry st dev segId dt c newId = .ok out →
      EntriesUnique out.1.entries) ∧
    (∀ (st : AppState) (dev segId : String) (dt : Date) (id1 id2 : String),
      EntriesUnique st.entries →
      ((clientToggleEntry (clientToggleEntry st dev segId dt true id1).1
          dev segId dt false id2).1.entries.filter
        (fun b => decide (b.segmentId = segId ∧ b.date = dt))).length = 1 ∧
      (∀ e ∈ (clientToggleEntry (clientToggleEntry st dev segId dt true id1).1
          dev segId dt false id2).1.entries,
        e.segmentId = segId → e.date = dt → e.completed = false)) ∧
    (∀ (st : AppState) (dev segId : String) (dt : Date) (id1 id2 : String)
        (out1 out2 : AppState × HabitEntry × Nat × Option Date),
      EntriesUnique st.entries →
      serverToggleEntry st dev segId dt true id1 = .ok out1 →
      serverToggleEntry out1.1 dev segId dt false id2 = .ok out2 →
      (out2.1.entries.filter
        (fun b => decide (b.segmentId = segId ∧ b.date = dt))).length = 1 ∧
      (∀ e ∈ out2.1.entries, e.segmentId = segId → e.date = dt → e.completed = false)) := by
  have hclient : ∀ (st : AppState) (dev segId : String) (dt : Date) (c : Bool)
      (newId : String), EntriesUnique st.entries →
      EntriesUnique (clientToggleEntry st dev segId dt c newId).1.entries :=
    fun st dev segId dt c newId hu =>
      clientUpsert_unique dev segId dt c newId st.entries hu
  have hserver : ∀ (st : AppState) (dev segId : String) (dt : Date) (c : Bool)
      (newId : String) (out : AppState × HabitEntry × Nat × Option Date),
      EntriesUnique st.entries →
      serverToggleEntry st dev segId dt c newId = .ok out →
      EntriesUnique out.1.entries := by
    intro st dev segId dt c newId out hu hok
    unfold serverToggleEntry at hok
    cases hm : serverUpsertEntry dev segId dt c newId st.entries with
    | error msg =>
      rw [hm] at hok
      simp at hok
    | ok r =>
      rw [hm] at hok
      simp only [Except.ok.injEq] at hok
      subst hok
      exact serverUpsert_ok_unique dev segId dt c newId st.entries r hm hu
  refine ⟨hclient, hserver, ?_, ?_⟩
  · intro st dev segId dt id1 id2 hu
    have hu1 : EntriesUnique (clientToggleEntry st dev segId dt true id1).1.entries :=
      hclient st dev segId dt true id1 hu
    obtain ⟨hf, _, _, hc⟩ := clientUpsert_key_filter dev segId dt false id2
      (clientToggleEntry st dev segId dt true id1).1.entries hu1
    constructor
    · show ((clientUpsertEntry dev segId dt false id2
          (clientToggleEntry st dev segId dt true id1).1.entries).1.filter
            (fun b => decide (b.segmentId = segId ∧ b.date = dt))).length = 1
      rw [hf]
      rfl
    · intro e he h1 h2
      have he' : e ∈ (clientUpsertEntry dev segId dt false id2
          (clientToggleEntry st dev segId dt true id1).1.entries).1 := he
      have hmem : e ∈ (clientUpsertEntry dev segId dt false id2
          (clientToggleEntry st dev segId dt true id1).1.entries).1.filter
            (fun b => decide (b.segmentId = segId ∧ b.date = dt)) :=
        List.mem_filter.mpr ⟨he', by simp [h1, h2]⟩
      rw [hf] at hmem
      rw [List.mem_singleton] at hmem
      rw [hmem]
      exact hc
  · intro st dev segId dt id1 id2 out1 out2 hu hok1 hok2
    have hu1 : EntriesUnique out1.1.entries := hserver st dev segId dt true id1 out1 hu hok1
    unfold serverToggleEntry at hok2
    cases hm : serverUpsertEntry dev segId dt false id2 out1.1.entries with
    | error msg =>
      rw [hm] at hok2
      simp at hok2
    | ok r =>
      rw [hm] at hok2
      simp only [Except.ok.injEq] at hok2
      subst hok2
      obtain ⟨hf, _, _, hc⟩ := serverUpsert_ok_key_filter dev segId dt false id2
        out1.1.entries r hm hu1
      constructor
      · rw [hf]
        rfl
      · intro e he h1 h2
        have hmem : e ∈ r.1.filter
            (fun b => decide (b.segmentId = segId ∧ b.date = dt)) :=
          List.mem_filter.mpr ⟨he, by simp [h1, h2]⟩
        rw [hf] at hmem
        rw [List.mem_singleton] at hmem
        rw [hmem]
        exact hc

/-- Witness for C6: double toggle on the concrete `exampleState`. -/
theorem toggleEntry_unique_key_witness :
    ((clientToggleEntry (clientToggleEntry exampleState "d1" "s1" ⟨2024, 3, 10⟩ true "x1").1
        "d1" "s1" ⟨2024, 3, 10⟩ false "x2").1.entries.filter
      (fun b => decide (b.segmentId = "s1" ∧ b.date = ⟨2024, 3, 10⟩))).length = 1 :=
  (toggleEntry_unique_key.2.2.1 exampleState "d1" "s1" ⟨2024, 3, 10⟩ "x1" "x2"
    (by decide)).1

/-- C10: the client `toggleEntry` only touches the `(segmentId, date)` entry
(creating a physical record even for `completed = false`) and, when a stored
segment has that id, the first such segment's `streak` / `lastCompletedDate`;
slots, all other entries, all other segments and all other segment fields are
unchanged, and a toggle whose `segmentId` matches no stored segment still
succeeds and leaves every segment unchanged. -/
theorem clientToggleEntry_frame :
    ∀ (st : AppState) (dev segId : String) (dt : Date) (c : Bool) (newId : String),
      (clientToggleEntry st dev segId dt c newId).1.slots = st.slots ∧
      (clientToggleEntry st dev segId dt c newId).1.entries.filter
          (fun b => !(decide (b.segmentId = segId ∧ b.date = dt))) =
        st.entries.filter (fun b => !(decide (b.segmentId = segId ∧ b.date = dt))) ∧
      (∃ e ∈ (clientToggleEntry st dev segId dt c newId).1.entries,
        e.segmentId = segId ∧ e.date = dt ∧ e.completed = c) ∧
      ((∀ g ∈ st.segments, g._id ≠ segId) →
        (clientToggleEntry st dev segId dt c newId).1.segments = st.segments) ∧
      (∀ pre g post, st.segments = pre ++ g :: post →
        (∀ x ∈ pre, x._id ≠ segId) → g._id = segId →
        (clientToggleEntry st dev segId dt c newId).1.segments =
          pre ++ { g with
            streak := (clientToggleEntry st dev segId dt c newId).2.2.1,
            lastCompletedDate := (clientToggleEntry st dev segId dt c newId).2.2.2 } :: post) := by
  intro st dev segId dt c newId
  refine ⟨rfl, ?_, ?_, ?_, ?_⟩
  · exact clientUpsert_nonkey_filter dev segId dt c newId st.entries
  · exact clientUpsert_exists_key dev segId dt c newId st.entries
  · intro h
    exact updateSegCache_eq_of_not_mem segId _ _ st.segments h
  · intro pre g post hdecomp hpre hg
    show updateSegCache segId _ _ st.segments = _
    rw [hdecomp]
    exact updateSegCache_decomp segId _ _ pre g post hpre hg

/-- Witness for C10: toggling with a segment id that matches no stored
segment succeeds and leaves the segments of `exampleState` unchanged. -/
theorem clientToggleEntry_frame_witness :
    (∀ g ∈ exampleState.segments, g._id ≠ "zz") ∧
    (clientToggleEntry exampleState "d1" "zz" ⟨2024, 3, 10⟩ true "w1").1.segments =
      exampleState.segments :=
  ⟨by decide,
    (clientToggleEntry_frame exampleState "d1" "zz" ⟨2024, 3, 10⟩ true "w1").2.2.2.1
      (by decide)⟩

end ToggleTheorems

section SegmentTimeline

theorem closeOpenClient_eq_of_not_open (dev slotId : String) (sd : Date) :
    ∀ gs, (∀ g ∈ gs, ¬ isOpenFor dev slotId g) →
      closeOpenClient dev slotId sd gs = gs := by
  intro gs
  induction gs with
  | nil => intro _; rfl
  | cons g gs ih =>
    intro h
    have hg : ¬ isOpenFor dev slotId g := h g (List.mem_cons_self g gs)
    simp only [closeOpenClient, if_neg hg]
    rw [ih (fun x hx => h x (List.mem_cons.mpr (Or.inr hx)))]

theorem closeOpenClient_decomp (dev slotId : String) (sd : Date) :
    ∀ pre g post, (∀ x ∈ pre, ¬ isOpenFor dev slotId x) → isOpenFor dev slotId g →
      closeOpenClient dev slotId sd (pre ++ g :: post) =
        pre ++ { g with endDate := some (prevDay sd) } :: post := by
  intro pre
  induction pre with
  | nil =>
    intro g post _ hg
    simp only [List.nil_append, closeOpenClient, if_pos hg]
  | cons x pre ih =>
    intro g post hpre hg
    have hx : ¬ isOpenFor dev slotId x := hpre x (List.mem_cons_self x pre)
    simp only [List.cons_append, closeOpenClient, if_neg hx, List.append_eq]
    rw [ih g post (fun z hz => hpre z (List.mem_cons.mpr (Or.inr hz))) hg]

theorem closeOpenServer_eq_of_not_open (dev slotId : String) (sd : Date) :
    ∀ gs, (∀ g ∈ gs, ¬ isOpenFor dev slotId g) →
      closeOpenServer dev slotId sd gs = gs := by
  intro gs
  induction gs with
  | nil => intro _; rfl
  | cons g gs ih =>
    intro h
    have hg : ¬ isOpenFor dev slotId g := h g (List.mem_cons_self g gs)
    simp only [closeOpenServer, if_neg hg]
    rw [ih (fun x hx => h x (List.mem_cons.mpr (Or.inr hx)))]

theorem closeOpenServer_decomp (dev slotId : String) (sd : Date) :
    ∀ pre g post, (∀ x ∈ pre, ¬ isOpenFor dev slotId x) → isOpenFor dev slotId g →
      closeOpenServer dev slotId sd (pre ++ g :: post) =
        pre ++ (if dateLt g.startDate sd then { g with endDate := some (prevDay sd) }
          else g) :: post := by
  intro pre
  induction pre with
  | nil =>
    intro g post _ hg
    simp only [List.nil_append, closeOpenServer, if_pos hg]
  | cons x pre ih =>
    intro g post hpre hg
    have hx : ¬ isOpenFor dev slotId x := hpre x (List.mem_cons_self x pre)
    simp only [List.cons_append, closeOpenServer, if_neg hx, List.append_eq]
    rw [ih g post (fun z hz => hpre z (List.mem_cons.mpr (Or.inr hz))) hg]

theorem closeOpenClient_length (dev slotId : String) (sd : Date) :
    ∀ gs, (closeOpenClient dev slotId sd gs).length = gs.length := by
  intro gs
  induction gs with
  | nil => rfl
  | cons g gs ih =>
    by_cases hg : isOpenFor dev slotId g
    · simp [closeOpenClient, if_pos hg]
    · simp only [closeOpenClient, if_neg hg, List.length_cons, ih]

theorem closeOpenServer_length (dev slotId : String) (sd : Date) :
    ∀ gs, (closeOpenServer dev slotId sd gs).length = gs.length := by
  intro gs
  induction gs with
  | nil => rfl
  | cons g gs ih =>
    by_cases hg : isOpenFor dev slotId g
    · simp [closeOpenServer, if_pos hg]
    · simp only [closeOpenServer, if_neg hg, List.length_cons, ih]

/-- Counterexample to C2 as stated: on the client offline engine a
`createSegment` whose `startDate` equals the open segment's own `startDate`
(so is NOT strictly after it) still rewrites that open segment's `endDate` to
the previous day, instead of leaving it unmodified. -/
theorem clientCreateSegment_closes_counterexample :
    ¬ dateLt (⟨2024, 3, 1⟩ : Date) ⟨2024, 3, 1⟩ ∧
    (clientCreateSegment exampleState "d1" "l1" "B" "#000" ⟨2024, 3, 1⟩ "g2").1.segments.head? =
      some ⟨"s1", "d1", "l1", "Reading", "#3B82F6", ⟨2024, 3, 1⟩,
        some ⟨2024, 2, 29⟩, 0, none⟩ := by
  decide

/-- C2 amended: both engines insert and return a fresh open segment; if no
open segment exists for the slot, the stored segments are untouched.  When a
(first) open segment exists, the server closes it (endDate := previous day of
the new startDate) exactly when the new startDate is strictly after its own
startDate, leaving it unmodified otherwise; the client offline engine closes
it unconditionally. -/
theorem createSegment_close_rule :
    ∀ (st : AppState) (dev slotId name color : String) (sd : Date) (newId : String),
      (clientCreateSegment st dev slotId name color sd newId).2 =
        ⟨newId, dev, slotId, name, color, sd, none, 0, none⟩ ∧
      (serverCreateSegment st dev slotId name color sd newId).2 =
        ⟨newId, dev, slotId, name, color, sd, none, 0, none⟩ ∧
      ((∀ g ∈ st.segments, ¬ isOpenFor dev slotId g) →
        (clientCreateSegment st dev slotId name color sd newId).1.segments =
          st.segments ++ [⟨newId, dev, slotId, name, color, sd, none, 0, none⟩] ∧
        (serverCreateSegment st dev slotId name color sd newId).1.segments =
          st.segments ++ [⟨newId, dev, slotId, name, color, sd, none, 0, none⟩]) ∧
      (∀ pre g post, st.segments = pre ++ g :: post →
        (∀ x ∈ pre, ¬ isOpenFor dev slotId x) → isOpenFor dev slotId g →
        (clientCreateSegment st dev slotId name color sd newId).1.segments =
          (pre ++ { g with endDate := some (prevDay sd) } :: post) ++
            [⟨newId, dev, slotId, name, color, sd, none, 0, none⟩] ∧
        (dateLt g.startDate sd →
          (serverCreateSegment st dev slotId name color sd newId).1.segments =
            (pre ++ { g with endDate := some (prevDay sd) } :: post) ++
              [⟨newId, dev, slotId, name, color, sd, none, 0, none⟩]) ∧
        (¬ dateLt g.startDate sd →
          (serverCreateSegment st dev slotId name color sd newId).1.segments =
            (pre ++ g :: post) ++
              [⟨newId, dev, slotId, name, color, sd, none, 0, none⟩])) := by
  intro st dev slotId name color sd newId
  refine ⟨rfl, rfl, ?_, ?_⟩
  · intro h
    constructor
    · show closeOpenClient dev slotId sd st.segments ++ _ = _
      rw [closeOpenClient_eq_of_not_open dev slotId sd st.segments h]
    · show closeOpenServer dev slotId sd st.segments ++ _ = _
      rw [closeOpenServer_eq_of_not_open dev slotId sd st.segments h]
  · intro pre g post hdecomp hpre hg
    refine ⟨?_, ?_, ?_⟩
    · show closeOpenClient dev slotId sd st.segments ++ _ = _
      rw [hdecomp, closeOpenClient_decomp dev slotId sd pre g post hpre hg]
    · intro hlt
      show closeOpenServer dev slotId sd st.segments ++ _ = _
      rw [hdecomp, closeOpenServer_decomp dev slotId sd pre g post hpre hg, if_pos hlt]
    · intro hlt
      show closeOpenServer dev slotId sd st.segments ++ _ = _
      rw [hdecomp, closeOpenServer_decomp dev slotId sd pre g post hpre hg, if_neg hlt]

/-- Witness for C2 (amended): creating a later segment on `exampleState`
closes its open segment at the previous day and appends the new one. -/
theorem createSegment_close_rule_witness :
    isOpenFor "d1" "l1"
      ⟨"s1", "d1", "l1", "Reading", "#3B82F6", ⟨2024, 3, 1⟩, none, 0, none⟩ ∧
    (clientCreateSegment exampleState "d1" "l1" "B" "#000" ⟨2024, 6, 1⟩ "g2").1.segments =
      ([] ++ { (⟨"s1", "d1", "l1", "Reading", "#3B82F6", ⟨2024, 3, 1⟩, none, 0, none⟩ :
          HabitSegment) with endDate := some (prevDay ⟨2024, 6, 1⟩) } :: []) ++
        [⟨"g2", "d1", "l1", "B", "#000", ⟨2024, 6, 1⟩, none, 0, none⟩] :=
  ⟨by decide,
    ((createSegment_close_rule exampleState "d1" "l1" "B" "#000" ⟨2024, 6, 1⟩ "g2").2.2.2
      [] ⟨"s1", "d1", "l1", "Reading", "#3B82F6", ⟨2024, 3, 1⟩, none, 0, none⟩ []
      rfl (by decide) (by decide)).1⟩

/-- Counterexample to C4 as stated: `exampleState` has a segment of slot `l1`
starting 2024-03-01, strictly after the new start date 2024-02-01, yet both
engines succeed and insert a new segment (neither has any `InvalidRange`
failure path). -/
theorem createSegment_no_invalid_range_counterexample :
    (∃ g ∈ exampleState.segments, g.slotId = "l1" ∧
      dateLt ⟨2024, 2, 1⟩ g.startDate) ∧
    (serverCreateSegment exampleState "d1" "l1" "B" "#000" ⟨2024, 2, 1⟩ "g2").1.segments.length =
      exampleState.segments.length + 1 ∧
    (clientCreateSegment exampleState "d1" "l1" "B" "#000" ⟨2024, 2, 1⟩ "g2").1.segments.length =
      exampleState.segments.length + 1 := by
  decide

/-- C4 amended: `createSegment` never fails — even when some existing segment
of the slot starts strictly after the new `startDate`, both engines insert
(and return) a new open segment. -/
theorem createSegment_always_inserts :
    ∀ (st : AppState) (dev slotId name color : String) (sd : Date) (newId : String),
      (∃ g ∈ st.segments, g.slotId = slotId ∧ dateLt sd g.startDate) →
      (clientCreateSegment st dev slotId name color sd newId).1.segments.length =
          st.segments.length + 1 ∧
      (serverCreateSegment st dev slotId name color sd newId).1.segments.length =
          st.segments.length + 1 ∧
      (clientCreateSegment st dev slotId name color sd newId).2.endDate = none ∧
      (serverCreateSegment st dev slotId name color sd newId).2.endDate = none ∧
      (clientCreateSegment st dev slotId name color sd newId).2 ∈
        (clientCreateSegment st dev slotId name color sd newId).1.segments ∧
      (serverCreateSegment st dev slotId name color sd newId).2 ∈
        (serverCreateSegment st dev slotId name color sd newId).1.segments := by
  intro st dev slotId name color sd newId _
  refine ⟨?_, ?_, rfl, rfl, ?_, ?_⟩
  · show (closeOpenClient dev slotId sd st.segments ++ _).length = _
    rw [List.length_append, closeOpenClient_length]
    rfl
  · show (closeOpenServer dev slotId sd st.segments ++ _).length = _
    rw [List.length_append, closeOpenServer_length]
    rfl
  · exact List.mem_append.mpr (Or.inr (List.mem_singleton.mpr rfl))
  · exact List.mem_append.mpr (Or.inr (List.mem_singleton.mpr rfl))

/-- Witness for C4 (amended) on `exampleState`. -/
theorem createSegment_always_inserts_witness :
    (∃ g ∈ exampleState.segments, g.slotId = "l1" ∧
      dateLt ⟨2024, 2, 1⟩ g.startDate) ∧
    (clientCreateSegment exampleState "d1" "l1" "B" "#000" ⟨2024, 2, 1⟩ "g2").1.segments.length =
      exampleState.segments.length + 1 :=
  ⟨by decide,
    (createSegment_always_inserts exampleState "d1" "l1" "B" "#000" ⟨2024, 2, 1⟩ "g2"
      (by decide)).1⟩

/-- Counterexample to C5 as stated: deleting slot `l1` on the client offline
engine removes the slot's segment `s1` but leaves all of `s1`'s entries in
storage — orphaned entries remain. -/
theorem clientDeleteSlot_orphan_counterexample :
    (∃ g ∈ exampleState.segments, g.slotId = "l1" ∧ g._id = "s1") ∧
    (clientDeleteSlot exampleState "l1").segments = [] ∧
    (∃ e ∈ (clientDeleteSlot exampleState "l1").entries, e.segmentId = "s1") := by
  decide

/-- C5 amended: the server engine's slot deletion is a complete cascade — no
slot with the id, no segment of the slot and no entry of any of the slot's
segments remains, while unrelated segments and entries are preserved.  The
client offline engine removes the slot and its segments but returns the
entries untouched (its entry cleanup is skipped), so entries of the deleted
segments survive as orphans. -/
theorem deleteSlot_cascade :
    ∀ (st : AppState) (slotId : String),
      (∀ s ∈ (serverDeleteSlot st slotId).slots, s._id ≠ slotId) ∧
      (∀ g ∈ (serverDeleteSlot st slotId).segments, g.slotId ≠ slotId) ∧
      (∀ e ∈ (serverDeleteSlot st slotId).entries, ∀ g ∈ st.segments,
        g.slotId = slotId → e.segmentId ≠ g._id) ∧
      (∀ g ∈ st.segments, g.slotId ≠ slotId →
        g ∈ (serverDeleteSlot st slotId).segments) ∧
      (∀ e ∈ st.entries, (∀ g ∈ st.segments, g.slotId = slotId → e.segmentId ≠ g._id) →
        e ∈ (serverDeleteSlot st slotId).entries) ∧
      (∀ g ∈ (clientDeleteSlot st slotId).segments, g.slotId ≠ slotId) ∧
      (clientDeleteSlot st slotId).entries = st.entries := by
  intro st slotId
  refine ⟨?_, ?_, ?_, ?_, ?_, ?_, rfl⟩
  · intro s hs
    have := (List.mem_filter.mp hs).2
    simpa using this
  · intro g hg
    have := (List.mem_filter.mp hg).2
    simpa using this
  · intro e he g hg hgs heq
    have hpred := (List.mem_filter.mp he).2
    simp only [Bool.not_eq_true'] at hpred
    have hmem : e.segmentId ∈
        ((st.segments.filter (fun g => g.slotId == slotId)).map (fun g => g._id)) := by
      refine List.mem_map.mpr ⟨g, ?_, heq.symm⟩
      exact List.mem_filter.mpr ⟨hg, by simp [hgs]⟩
    rw [List.contains_eq_any_beq] at hpred
    have hany : ((st.segments.filter (fun g => g.slotId == slotId)).map
        (fun g => g._id)).any (fun x => e.segmentId == x) = true :=
      List.any_eq_true.mpr ⟨e.segmentId, hmem, beq_self_eq_true _⟩
    rw [hany] at hpred
    exact absurd hpred (by decide)
  · intro g hg hne
    exact List.mem_filter.mpr ⟨hg, by simpa using hne⟩
  · intro e he hno
    refine List.mem_filter.mpr ⟨he, ?_⟩
    simp only [Bool.not_eq_true']
    rw [List.contains_eq_any_beq]
    rw [List.any_eq_false]
    intro x hx
    obtain ⟨g, hg, hgid⟩ := List.mem_map.mp hx
    have hslot : g.slotId = slotId := by
      have := (List.mem_filter.mp hg).2
      simpa using this
    have := hno g (List.mem_filter.mp hg).1 hslot
    subst hgid
    simpa using this
  · intro g hg
    have := (List.mem_filter.mp hg).2
    simpa using this

/-- Witness for C5 (amended): the server cascade on `exampleState` leaves no
entry of any deleted segment. -/
theorem deleteSlot_cascade_witness :
    ∀ e ∈ (serverDeleteSlot exampleState "l1").entries,
      ∀ g ∈ exampleState.segments, g.slotId = "l1" → e.segmentId ≠ g._id :=
  (deleteSlot_cascade exampleState "l1").2.2.1

end SegmentTimeline

section AnalyticsDaily

theorem getDaysInMonth_nodup (a : Date) : (getDaysInMonth a).Nodup := by
  rw [getDaysInMonth_eq]
  refine List.Nodup.map ?_ (List.nodup_range _)
  intro i j h
  simp only [Date.mk.injEq] at h
  omega

theorem bumpTotal_mapForm (f c : Date → Nat) (dt : Date) :
    ∀ days : List Date, days.Nodup →
      bumpTotal dt (days.map (fun d => (d, (⟨f d, c d⟩ : DayStat)))) =
        days.map (fun d => (d,
          (⟨if d = dt then f d + 1 else f d, c d⟩ : DayStat))) := by
  intro days
  induction days with
  | nil => intro _; rfl
  | cons d days ih =>
    intro hnd
    have hd : d ∉ days := (List.nodup_cons.mp hnd).1
    have hnd' : days.Nodup := (List.nodup_cons.mp hnd).2
    simp only [List.map_cons, bumpTotal]
    by_cases hdt : d = dt
    · subst hdt
      rw [if_pos rfl, if_pos rfl]
      congr 1
      apply List.map_congr_left
      intro x hx
      rw [if_neg (fun h2 : _ = d => hd (h2 ▸ hx))]
    · rw [if_neg hdt, if_neg hdt, ih hnd']

theorem bumpCompleted_mapForm (f c : Date → Nat) (dt : Date) :
    ∀ days : List Date, days.Nodup →
      bumpCompleted dt (days.map (fun d => (d, (⟨f d, c d⟩ : DayStat)))) =
        days.map (fun d => (d,
          (⟨f d, if d = dt then c d + 1 else c d⟩ : DayStat))) := by
  intro days
  induction days with
  | nil => intro _; rfl
  | cons d days ih =>
    intro hnd
    have hd : d ∉ days := (List.nodup_cons.mp hnd).1
    have hnd' : days.Nodup := (List.nodup_cons.mp hnd).2
    simp only [List.map_cons, bumpCompleted]
    by_cases hdt : d = dt
    · subst hdt
      rw [if_pos rfl, if_pos rfl]
      congr 1
      apply List.map_congr_left
      intro x hx
      rw [if_neg (fun h2 : _ = d => hd (h2 ▸ hx))]
    · rw [if_neg hdt, if_neg hdt, ih hnd']

theorem accumDays_mapForm (g : HabitSegment) (c : Date → Nat) :
    ∀ (l : List Date) (days : List Date) (f : Date → Nat), days.Nodup →
      l.foldl (fun m dt => if isActiveOn g dt then bumpTotal dt m else m)
          (days.map (fun d => (d, (⟨f d, c d⟩ : DayStat)))) =
        days.map (fun d => (d,
          (⟨f d + (if isActiveOn g d then l.count d else 0), c d⟩ : DayStat))) := by
  intro l
  induction l with
  | nil =>
    intro days f hnd
    simp only [List.foldl_nil]
    apply List.map_congr_left
    intro x _
    simp [List.count_nil]
  | cons d' l ih =>
    intro days f hnd
    simp only [List.foldl_cons]
    by_cases hact : isActiveOn g d'
    · rw [if_pos hact, bumpTotal_mapForm f c d' days hnd,
        ih days (fun d => if d = d' then f d + 1 else f d) hnd]
      apply List.map_congr_left
      intro x _
      simp only [Prod.mk.injEq, DayStat.mk.injEq, true_and, and_true]
      by_cases hx : x = d'
      · subst hx
        rw [if_pos rfl, if_pos hact, if_pos hact]
        rw [List.count_cons_self]
        omega
      · rw [if_neg hx, List.count_cons_of_ne hx]
    · rw [if_neg hact, ih days f hnd]
      apply List.map_congr_left
      intro x _
      simp only [Prod.mk.injEq, DayStat.mk.injEq, true_and, and_true]
      by_cases hx : x = d'
      · subst hx
        rw [if_neg hact, if_neg hact]
      · rw [List.count_cons_of_ne hx]

theorem segsFold_mapForm (c : Date → Nat) :
    ∀ (segs : List HabitSegment) (days : List Date) (f : Date → Nat), days.Nodup →
      segs.foldl (fun m g => accumSegmentTotals days g m)
          (days.map (fun d => (d, (⟨f d, c d⟩ : DayStat)))) =
        days.map (fun d => (d,
          (⟨f d + (segs.filter (fun g => decide (isActiveOn g d))).length,
            c d⟩ : DayStat))) := by
  intro segs
  induction segs with
  | nil =>
    intro days f hnd
    simp only [List.foldl_nil]
    apply List.map_congr_left
    intro x _
    simp
  | cons g segs ih =>
    intro days f hnd
    simp only [List.foldl_cons]
    have hacc : accumSegmentTotals days g
        (days.map (fun d => (d, (⟨f d, c d⟩ : DayStat)))) =
      days.map (fun d => (d,
        (⟨f d + (if isActiveOn g d then 1 else 0), c d⟩ : DayStat))) := by
      unfold accumSegmentTotals
      rw [accumDays_mapForm g c days days f hnd]
      apply List.map_congr_left
      intro x hx
      simp only [Prod.mk.injEq, DayStat.mk.injEq, true_and, and_true]
      rw [List.count_eq_one_of_mem hnd hx]
    rw [hacc, ih days (fun d2 => f d2 + (if isActiveOn g d2 then 1 else 0)) hnd]
    apply List.map_congr_left
    intro x _
    simp only [Prod.mk.injEq, DayStat.mk.injEq, true_and, and_true]
    rw [List.filter_cons]
    by_cases hact : isActiveOn g x
    · rw [if_pos hact, if_pos (show decide (isActiveOn g x) = true by simpa using hact)]
      simp only [List.length_cons]
      omega
    · rw [if_neg hact,
        if_neg (show ¬ decide (isActiveOn g x) = true by simpa using hact)]
      omega

theorem mapHasKey_mapForm (f c : Date → Nat) (dt : Date) (days : List Date) :
    mapHasKey (days.map (fun d => (d, (⟨f d, c d⟩ : DayStat)))) dt = true ↔
      dt ∈ days := by
  unfold mapHasKey
  rw [List.any_eq_true]
  constructor
  · rintro ⟨p, hp, hdec⟩
    obtain ⟨d, hd, rfl⟩ := List.mem_map.mp hp
    simp only [decide_eq_true_eq] at hdec
    rwa [← hdec]
  · intro h
    exact ⟨(dt, ⟨f dt, c dt⟩), List.mem_map.mpr ⟨dt, h, rfl⟩, by simp⟩

theorem entriesFold_mapForm :
    ∀ (ents : List HabitEntry) (days : List Date) (f c : Date → Nat), days.Nodup →
      ents.foldl (fun m e =>
          if (mapHasKey m e.date && e.completed) = true then bumpCompleted e.date m
          else m)
        (days.map (fun d => (d, (⟨f d, c d⟩ : DayStat)))) =
      days.map (fun d => (d,
        (⟨f d,
          c d + (ents.filter (fun e => decide (e.date = d) && e.completed)).length⟩ :
          DayStat))) := by
  intro ents
  induction ents with
  | nil =>
    intro days f c hnd
    simp only [List.foldl_nil]
    apply List.map_congr_left
    intro x _
    simp
  | cons e ents ih =>
    intro days f c hnd
    simp only [List.foldl_cons]
    by_cases hcond : (mapHasKey (days.map (fun d => (d, (⟨f d, c d⟩ : DayStat)))) e.date
        && e.completed) = true
    · rw [if_pos hcond]
      obtain ⟨hkey, hcomp⟩ := Bool.and_eq_true_iff.mp hcond
      have hmem : e.date ∈ days := (mapHasKey_mapForm f c e.date days).mp hkey
      rw [bumpCompleted_mapForm f c e.date days hnd,
        ih days f (fun d => if d = e.date then c d + 1 else c d) hnd]
      apply List.map_congr_left
      intro x _
      simp only [Prod.mk.injEq, DayStat.mk.injEq, true_and, and_true]
      rw [List.filter_cons]
      by_cases hx : x = e.date
      · subst hx
        rw [if_pos rfl, if_pos (by simp [hcomp])]
        simp only [List.length_cons]
        omega
      · rw [if_neg hx, if_neg ?_]
        simp only [Bool.and_eq_true, decide_eq_true_eq, not_and]
        intro hdx
        exact absurd hdx.symm hx
    · rw [if_neg hcond, ih days f c hnd]
      apply List.map_congr_left
      intro x hx
      simp only [Prod.mk.injEq, DayStat.mk.injEq, true_and, and_true]
      rw [List.filter_cons]
      rw [if_neg ?_]
      simp only [Bool.and_eq_true, decide_eq_true_eq, not_and]
      intro hdx hcomp
      apply hcond
      rw [Bool.and_eq_true]
      refine ⟨?_, hcomp⟩
      rw [mapHasKey_mapForm f c e.date days]
      rwa [← hdx] at hx

theorem buildDailyMap_eq (days : List Date) (segments : List HabitSegment)
    (entries : List HabitEntry) (hnd : days.Nodup) :
    buildDailyMap days segments entries =
      days.map (fun d => (d,
        (⟨(segments.filter (fun g => decide (isActiveOn g d))).length,
          (entries.filter (fun e => decide (e.date = d) && e.completed)).length⟩ :
          DayStat))) := by
  simp only [buildDailyMap, initDailyMap]
  rw [segsFold_mapForm (fun _ => 0) segments days (fun _ => 0) hnd]
  have hmid : days.map (fun d => (d,
      (⟨0 + (segments.filter (fun g => decide (isActiveOn g d))).length,
        0⟩ : DayStat))) =
    days.map (fun d => (d,
      (⟨(segments.filter (fun g => decide (isActiveOn g d))).length,
        0⟩ : DayStat))) := by
    apply List.map_congr_left
    intro x _
    simp
  rw [hmid, entriesFold_mapForm entries days
    (fun d2 => (segments.filter (fun g => decide (isActiveOn g d2))).length)
    (fun _ => 0) hnd]
  apply List.map_congr_left
  intro x _
  simp

/-- Counterexample to C3 as stated: one segment active throughout May 2024
and a single completed entry dated 2024-05-10 whose `segmentId` (`"ghost"`)
belongs to no segment.  The claim's formula (counting only completed entries
of segments active that day) gives 0 for 2024-05-10, but the code counts
every completed entry of that date and reports 100. -/
theorem dailyCompletion_membership_counterexample :
    (dailyCompletion (getDaysInMonth ⟨2024, 5, 1⟩)
        [⟨"sA", "d1", "l1", "A", "#000", ⟨2024, 5, 1⟩, none, 0, none⟩]
        [⟨"ge", "d1", "ghost", ⟨2024, 5, 10⟩, true⟩])[9]? =
      some (⟨2024, 5, 10⟩, (100 : ℚ)) ∧
    specDailyValue
      [⟨"sA", "d1", "l1", "A", "#000", ⟨2024, 5, 1⟩, none, 0, none⟩]
      [⟨"ge", "d1", "ghost", ⟨2024, 5, 10⟩, true⟩] ⟨2024, 5, 10⟩ = 0 ∧
    (100 : ℚ) ≠ 0 := by
  have h1 : (List.filter (fun g => decide (isActiveOn g (⟨2024, 5, 10⟩ : Date)))
      [(⟨"sA", "d1", "l1", "A", "#000", ⟨2024, 5, 1⟩, none, 0, none⟩ :
        HabitSegment)]).length = 1 := by decide
  have h2 : (List.filter
      (fun e => decide (e.date = (⟨2024, 5, 10⟩ : Date)) && e.completed)
      [(⟨"ge", "d1", "ghost", ⟨2024, 5, 10⟩, true⟩ : HabitEntry)]).length = 1 := by
    decide
  have h3 : (List.filter
      (fun e => decide (e.date = (⟨2024, 5, 10⟩ : Date)) && e.completed &&
        (List.filter (fun g => decide (isActiveOn g (⟨2024, 5, 10⟩ : Date)))
          [(⟨"sA", "d1", "l1", "A", "#000", ⟨2024, 5, 1⟩, none, 0, none⟩ :
            HabitSegment)]).any (fun g => g._id == e.segmentId))
      [(⟨"ge", "d1", "ghost", ⟨2024, 5, 10⟩, true⟩ : HabitEntry)]).length = 0 := by
    decide
  refine ⟨?_, ?_, by norm_num⟩
  · unfold dailyCompletion
    rw [buildDailyMap_eq _ _ _ (getDaysInMonth_nodup _), getDaysInMonth_eq]
    simp only [List.map_map]
    rw [List.getElem?_map]
    rw [show (List.range (daysInMonthCount 2024 5))[9]? = some 9 from by decide]
    simp only [Option.map_some', Function.comp_apply]
    norm_num
    rw [if_pos (show isActiveOn
      ⟨"sA", "d1", "l1", "A", "#000", ⟨2024, 5, 1⟩, none, 0, none⟩
      (⟨2024, 5, 10⟩ : Date) by decide)]
    norm_num
    exact h1
  · simp only [specDailyValue]
    rw [h1, h3]
    norm_num

/-- C3 amended: for every month and every set of segments and entries, the
code's `dailyCompletion` assigns to day `D` the value
`completed_count(D) / active_segment_count(D) * 100` where
`active_segment_count(D)` counts every segment whose range contains `D`, and
`completed_count(D)` counts every completed entry dated `D` — with NO test
that the entry belongs to an active (or any) segment; the value is 0 when no
segment is active on `D`, and is a rational number (never NaN or an error). -/
theorem dailyCompletion_amended :
    ∀ (a : Date) (segments : List HabitSegment) (entries : List HabitEntry),
      (dailyCompletion (getDaysInMonth a) segments entries).length =
        daysInMonthCount a.y a.m ∧
      (∀ i (h : i < (dailyCompletion (getDaysInMonth a) segments entries).length),
        (dailyCompletion (getDaysInMonth a) segments entries).get ⟨i, h⟩ =
          (⟨a.y, a.m, i + 1⟩, amendedDailyValue segments entries ⟨a.y, a.m, i + 1⟩)) ∧
      (∀ dt, (segments.filter (fun g => decide (isActiveOn g dt))).length = 0 →
        amendedDailyValue segments entries dt = 0) := by
  intro a segments entries
  have hbuild := buildDailyMap_eq (getDaysInMonth a) segments entries
    (getDaysInMonth_nodup a)
  have hdays := getDaysInMonth_eq a
  have hlen : (dailyCompletion (getDaysInMonth a) segments entries).length =
      daysInMonthCount a.y a.m := by
    unfold dailyCompletion
    rw [hbuild, hdays]
    simp
  refine ⟨hlen, ?_, ?_⟩
  · intro i h
    have hi : i < daysInMonthCount a.y a.m := by rwa [hlen] at h
    rw [List.get_of_eq (by unfold dailyCompletion; rw [hbuild, hdays])]
    simp only [List.map_map, List.get_eq_getElem, List.getElem_map, List.getElem_range]
    unfold amendedDailyValue
    rfl
  · intro dt h0
    unfold amendedDailyValue
    rw [h0]
    simp

/-- Witness for C3 (amended): February 2023 (a non-leap year) with the ghost
entry: the list has 28 values and day 10 carries the amended value. -/
theorem dailyCompletion_amended_witness :
    (dailyCompletion (getDaysInMonth ⟨2023, 2, 1⟩)
        [⟨"sA", "d1", "l1", "A", "#000", ⟨2023, 2, 1⟩, none, 0, none⟩]
        [⟨"ge", "d1", "ghost", ⟨2023, 2, 10⟩, true⟩]).length = 28 := by
  have h := (dailyCompletion_amended ⟨2023, 2, 1⟩
    [⟨"sA", "d1", "l1", "A", "#000", ⟨2023, 2, 1⟩, none, 0, none⟩]
    [⟨"ge", "d1", "ghost", ⟨2023, 2, 10⟩, true⟩]).1
  rw [h]
  decide

end AnalyticsDaily

section AnalyticsTop

theorem orderedInsert_rate_filter (x : HabitStat) (q : ℚ) :
    ∀ l : List HabitStat,
      (List.orderedInsert statOrder x l).filter (fun h => decide (h.rate = q)) =
        if x.rate = q then x :: l.filter (fun h => decide (h.rate = q))
        else l.filter (fun h => decide (h.rate = q)) := by
  intro l
  induction l with
  | nil =>
    by_cases hq : x.rate = q
    · rw [if_pos hq]
      simp [List.orderedInsert, hq]
    · rw [if_neg hq]
      simp [List.orderedInsert, hq]
  | cons y ys ih =>
    simp only [List.orderedInsert]
    by_cases hord : statOrder x y
    · rw [if_pos hord]
      by_cases hq : x.rate = q
      · rw [if_pos hq, List.filter_cons_of_pos (by simpa using hq)]
      · rw [if_neg hq, List.filter_cons_of_neg (by simpa using hq)]
    · rw [if_neg hord]
      by_cases hyq : y.rate = q
      · have hxq : ¬ x.rate = q := by
          intro hx
          exact hord (show statOrder x y by unfold statOrder; rw [hyq, hx])
        rw [if_neg hxq]
        rw [List.filter_cons_of_pos (by simpa using hyq),
          List.filter_cons_of_pos (by simpa using hyq), ih, if_neg hxq]
      · rw [List.filter_cons_of_neg (by simpa using hyq),
          List.filter_cons_of_neg (by simpa using hyq), ih]

theorem insertionSort_rate_filter (q : ℚ) :
    ∀ l : List HabitStat,
      (List.insertionSort statOrder l).filter (fun h => decide (h.rate = q)) =
        l.filter (fun h => decide (h.rate = q)) := by
  intro l
  induction l with
  | nil => rfl
  | cons x xs ih =>
    simp only [List.insertionSort]
    rw [orderedInsert_rate_filter x q (List.insertionSort statOrder xs)]
    by_cases hq : x.rate = q
    · rw [if_pos hq, ih, List.filter_cons_of_pos (by simpa using hq)]
    · rw [if_neg hq, ih, List.filter_cons_of_neg (by simpa using hq)]

theorem habitStat_fold (g : HabitSegment) (entries : List HabitEntry) :
    ∀ (l : List Date) (p : Nat × Nat),
      l.foldl (fun acc dt =>
        if isActiveOn g dt then
          (acc.1 + 1,
           if entries.any (fun e =>
               e.segmentId == g._id && decide (e.date = dt) && e.completed) then
             acc.2 + 1
           else acc.2)
        else acc) p =
      (p.1 + (l.filter (fun dt => decide (isActiveOn g dt))).length,
       p.2 + (l.filter (fun dt => decide (isActiveOn g dt) &&
         entries.any (fun e =>
           e.segmentId == g._id && decide (e.date = dt) && e.completed))).length) := by
  intro l
  induction l with
  | nil =>
    intro p
    simp
  | cons d l ih =>
    intro p
    simp only [List.foldl_cons]
    by_cases hact : isActiveOn g d
    · rw [if_pos hact, ih]
      by_cases hany : entries.any (fun e =>
          e.segmentId == g._id && decide (e.date = d) && e.completed) = true
      · rw [if_pos hany]
        rw [List.filter_cons_of_pos (by simpa using hact),
          List.filter_cons_of_pos (by simp [hact, hany])]
        simp only [List.length_cons, Prod.mk.injEq]
        omega
      · rw [if_neg hany]
        rw [List.filter_cons_of_pos (by simpa using hact),
          List.filter_cons_of_neg (by simp [hany])]
        simp only [List.length_cons, Prod.mk.injEq]
        refine ⟨by omega, trivial⟩
    · rw [if_neg hact, ih]
      rw [List.filter_cons_of_neg (by simpa using hact),
        List.filter_cons_of_neg (by simp [hact])]

theorem habitStat_eq (days : List Date) (entries : List HabitEntry)
    (g : HabitSegment) :
    habitStat days entries g = ⟨g.name, specHabitRate days entries g⟩ := by
  simp only [habitStat, specHabitRate]
  rw [habitStat_fold g entries days (0, 0)]
  simp

/-- C7: `topHabits` has at most 5 elements, is sorted descending by rate
(`statOrder`), every element carries a segment's name together with its
completed-days over active-days-within-the-month ratio times 100 (0 for zero
active days, a rational, never NaN), and elements with equal rates appear in
the original segment order (the rate-`q` elements of `topHabits` form a
prefix of the rate-`q` elements of the stats in original segment order). -/
theorem topHabits_spec :
    ∀ (a : Date) (segments : List HabitSegment) (entries : List HabitEntry),
      (topHabits (getDaysInMonth a) segments entries).length ≤ 5 ∧
      List.Pairwise statOrder (topHabits (getDaysInMonth a) segments entries) ∧
      (∀ h ∈ topHabits (getDaysInMonth a) segments entries, ∃ g ∈ segments,
        h.name = g.name ∧
        h.rate = specHabitRate (getDaysInMonth a) entries g) ∧
      (∀ q : ℚ, ∃ t, (topHabits (getDaysInMonth a) segments entries).filter
          (fun h => decide (h.rate = q)) ++ t =
        (segments.map (habitStat (getDaysInMonth a) entries)).filter
          (fun h => decide (h.rate = q))) := by
  intro a segments entries
  refine ⟨?_, ?_, ?_, ?_⟩
  · unfold topHabits
    rw [List.length_take]
    exact min_le_left _ _
  · unfold topHabits
    exact (List.sorted_insertionSort statOrder _).sublist (List.take_sublist _ _)
  · intro h hmem
    unfold topHabits at hmem
    have hmem2 : h ∈ List.insertionSort statOrder
        (segments.map (habitStat (getDaysInMonth a) entries)) :=
      List.mem_of_mem_take hmem
    have hmem3 : h ∈ segments.map (habitStat (getDaysInMonth a) entries) :=
      (List.perm_insertionSort statOrder _).mem_iff.mp hmem2
    obtain ⟨g, hg, hgh⟩ := List.mem_map.mp hmem3
    refine ⟨g, hg, ?_, ?_⟩
    · rw [← hgh, habitStat_eq]
    · rw [← hgh, habitStat_eq]
  · intro q
    unfold topHabits
    obtain ⟨t0, ht0⟩ : ∃ t0, (List.insertionSort statOrder
        (segments.map (habitStat (getDaysInMonth a) entries))).take 5 ++ t0 =
      List.insertionSort statOrder
        (segments.map (habitStat (getDaysInMonth a) entries)) :=
      ⟨_, List.take_append_drop 5 _⟩
    refine ⟨t0.filter (fun h => decide (h.rate = q)), ?_⟩
    rw [← List.filter_append, ht0, insertionSort_rate_filter]

/-- Witness for C7 on the concrete `exampleState` month. -/
theorem topHabits_spec_witness :
    (topHabits (getDaysInMonth ⟨2024, 3, 1⟩) exampleState.segments
      exampleState.entries).length ≤ 5 :=
  (topHabits_spec ⟨2024, 3, 1⟩ exampleState.segments exampleState.entries).1

end AnalyticsTop

end HabitTracker
